import Mathlib

/-
Verification of the reverse-mode automatic differentiation engine described
in the repository specification (the autograd subsystem used by the
tutorial notebooks).  The engine itself is not part of the repository
sources (the notebooks only call into it), so every definition below is
modelled from the specification text: the data model of section 3, the
forward-tracking rules of section 4.1 and the backward-traversal contract
of section 4.2.  Tensors carry a shape, flat integer data (the numeric
scalar type of the external tensor library is abstracted to Int), a
tracking flag, and an optional producing-operation record; gradient slots
are kept in a parallel list.  Operation records of a node always have
inputs with strictly smaller indices, which realises the acyclicity
invariant of the computation graph.
-/

namespace Autograd

/-- Modelled from the spec: a tensor value of the external numeric library,
an n-dimensional array represented by its shape and flat row-major data. -/
structure TVal where
  shape : List Nat
  data : List Int
deriving DecidableEq

/-- Modelled from the spec: number of elements of a shape (product of the
dimensions; the empty shape denotes a scalar with one element). -/
def numel (s : List Nat) : Nat := s.prod

/-- Modelled from the spec: an all-zero data buffer, used to zero-initialise
a gradient slot on first write. -/
def zerosData (n : Nat) : List Int := List.replicate n 0

/-- Modelled from the spec: an all-ones data buffer, the default seed
gradient for a scalar root. -/
def onesData (n : Nat) : List Int := List.replicate n 1

/-- Modelled from the spec: elementwise addition of gradient values, used to
sum gradients into a pending aggregate or a gradient slot. -/
def addTVal (a b : TVal) : TVal :=
  ⟨a.shape, a.data.zipWith (· + ·) b.data⟩

/-- Modelled from the spec: the primitive operation kinds needed by the
tutorial graphs, as a tagged variant with one implementation per kind
(design note of section 9): multiplication by a constant, elementwise
addition, vector-matrix product, and reduction of all elements to a
scalar. -/
inductive Op where
  | mulC (c : Int)
  | addT
  | matvec
  | sumAll
deriving DecidableEq

/-- Modelled from the spec: an operation record capturing one primitive
computation: the operation kind, the indices of its input tensors, the
captured input values its local-gradient function needs, and whether the
record has been released after a non-retained traversal. -/
structure OpRec where
  op : Op
  inputs : List Nat
  saved : List TVal
  freed : Bool
deriving DecidableEq

/-- Modelled from the spec: a tensor of the computation graph: shape, flat
data, the tracking flag, and the optional back-reference to the operation
record that produced it (absent for leaves). -/
structure Node where
  shape : List Nat
  data : List Int
  requiresGrad : Bool
  gradFn : Option OpRec
deriving DecidableEq

/-- Default node returned by out-of-range lookups. -/
def dfltNode : Node := ⟨[], [], false, none⟩

/-- Modelled from the spec: the computation graph, a list of tensors indexed
by position (every record refers to strictly smaller indices), together
with the parallel list of optional gradient-accumulator slots. -/
structure Graph where
  nodes : List Node
  grads : List (Option TVal)
deriving DecidableEq

/-- Dot product of two flat buffers. -/
def dotI (a b : List Int) : Int := (a.zipWith (· * ·) b).sum

/-- Row decomposition of a flat row-major matrix buffer: n rows of length m. -/
def rowsOf : Nat → Nat → List Int → List (List Int)
  | 0, _, _ => []
  | n + 1, m, l => l.take m :: rowsOf n m (l.drop m)

/-- Modelled from the spec: the local-gradient function of an operation
record: given the upstream gradient for the record output, it returns one
gradient per input, computed from the captured input values. -/
def lgrad (r : OpRec) (u : TVal) : List TVal :=
  match r.op, r.saved with
  | Op.mulC c, _ => [⟨u.shape, u.data.map (fun x => c * x)⟩]
  | Op.addT, _ => [u, u]
  | Op.matvec, [x, w] =>
      [⟨x.shape, (rowsOf (numel x.shape) u.data.length w.data).map
          (fun row => dotI row u.data)⟩,
       ⟨w.shape, x.data.flatMap (fun xi => u.data.map (fun uj => xi * uj))⟩]
  | Op.sumAll, [x] => [⟨x.shape, List.replicate (numel x.shape) (u.data.headD 0)⟩]
  | _, _ => []

/-- Modelled from the spec: forward evaluation of a primitive operation by
the external numeric library. -/
def evalOp (o : Op) (ins : List TVal) : TVal :=
  match o, ins with
  | Op.mulC c, [x] => ⟨x.shape, x.data.map (fun v => c * v)⟩
  | Op.addT, [x, y] => ⟨x.shape, x.data.zipWith (· + ·) y.data⟩
  | Op.matvec, [x, w] =>
      ⟨[w.shape.getD 1 0],
       ((x.data.zip (rowsOf x.data.length (w.shape.getD 1 0) w.data)).foldl
          (fun acc p => acc.zipWith (· + ·) (p.2.map (fun v => p.1 * v)))
          (zerosData (w.shape.getD 1 0)))⟩
  | Op.sumAll, [x] => ⟨[], [x.data.sum]⟩
  | _, _ => ⟨[], []⟩

/-- Modelled from the spec: the error kinds reported synchronously by the
engine (section 7). -/
inductive AGError where
  | NoGradientPath
  | ShapeMismatch
  | AmbiguousGradient
  | GraphAlreadyFreed
  | CycleDetected
deriving DecidableEq

/-- Modelled from the spec: summing a forwarded gradient into a pending
aggregate, creating the aggregate from the contribution on first write. -/
def accAdd (o : Option TVal) (v : TVal) : Option TVal :=
  match o with
  | none => some v
  | some w => some (addTVal w v)

/-- Folding a list of gradient contributions into a pending aggregate, in
arrival order. -/
def accAddList (o : Option TVal) (l : List TVal) : Option TVal :=
  l.foldl accAdd o

/-- Adding one gradient contribution at one index of the pending table. -/
def pendAdd (p : List (Option TVal)) (j : Nat) (v : TVal) : List (Option TVal) :=
  p.set j (accAdd (p.getD j none) v)

/-- Modelled from the spec: forwarding the per-input gradients of one record
to the pending aggregates of its inputs, summing (never overwriting). -/
def distribute (p : List (Option TVal)) (prs : List (Nat × TVal)) :
    List (Option TVal) :=
  prs.foldl (fun q pr => pendAdd q pr.1 pr.2) p

/-- Modelled from the spec: one visit of the reverse traversal at index i.
A record with a pending upstream gradient is invoked on the summed
aggregate and distributes one gradient per input; a leaf keeps its
aggregate for final accumulation; a released record aborts the traversal
with GraphAlreadyFreed. -/
def step (nodes : List Node) (p : List (Option TVal)) (i : Nat) :
    Except AGError (List (Option TVal) × Bool) :=
  match p.getD i none with
  | none => Except.ok (p, false)
  | some u =>
    match (nodes.getD i dfltNode).gradFn with
    | none => Except.ok (p, false)
    | some r =>
      if r.freed then Except.error AGError.GraphAlreadyFreed
      else Except.ok (distribute p (r.inputs.zip (lgrad r u)), true)

/-- Modelled from the spec: the reverse topological walk.  Indices are
visited in decreasing order from the root, so every record runs only after
all of its consumers (which have larger indices) have contributed to its
pending aggregate.  Returns the final pending table and the list of
invoked record indices in visiting order. -/
def runDown (nodes : List Node) (p : List (Option TVal)) :
    Nat → Except AGError (List (Option TVal) × List Nat)
  | 0 =>
    match step nodes p 0 with
    | Except.error e => Except.error e
    | Except.ok (q, b) => Except.ok (q, if b then [0] else [])
  | i + 1 =>
    match step nodes p (i + 1) with
    | Except.error e => Except.error e
    | Except.ok (q, b) =>
      match runDown nodes q i with
      | Except.error e => Except.error e
      | Except.ok (fin, vis) =>
        Except.ok (fin, if b then (i + 1) :: vis else vis)

/-- Modelled from the spec: the traversal of the graph below a root with a
given seed, starting from a pending table holding only the seed at the
root. -/
def backwardAcc (g : Graph) (root : Nat) (sd : TVal) :
    Except AGError (List (Option TVal) × List Nat) :=
  runDown g.nodes ((List.replicate g.nodes.length none).set root (some sd)) root

/-- Modelled from the spec: accumulating the final pending aggregates into
the gradient slots of tracked leaves, creating a zero-initialised slot on
first write; intermediate and untracked tensors never receive a slot. -/
def applyAcc (nodes : List Node) (grads : List (Option TVal))
    (acc : List (Option TVal)) : List (Option TVal) :=
  (List.range nodes.length).map (fun j =>
    let nd := nodes.getD j dfltNode
    match acc.getD j none with
    | none => grads.getD j none
    | some d =>
      if nd.gradFn.isNone && nd.requiresGrad then
        some (addTVal ((grads.getD j none).getD ⟨nd.shape, zerosData (numel nd.shape)⟩) d)
      else grads.getD j none)

/-- Modelled from the spec: releasing one operation record after a
non-retained traversal: its captured intermediates are freed and the
record is marked released, which invalidates the producing-operation link
of its output tensor. -/
def freeRecord (nd : Node) : Node :=
  match nd.gradFn with
  | none => nd
  | some r => ⟨nd.shape, nd.data, nd.requiresGrad, some ⟨r.op, r.inputs, [], true⟩⟩

/-- Modelled from the spec: releasing every operation record visited by a
completed non-retained traversal. -/
def freeVisited (nodes : List Node) (vis : List Nat) : List Node :=
  vis.foldl (fun ns i => ns.set i (freeRecord (ns.getD i dfltNode))) nodes

/-- Whether the record of node i, if any, is marked released. -/
def recFreedAtB (nodes : List Node) (i : Nat) : Bool :=
  match (nodes.getD i dfltNode).gradFn with
  | none => true
  | some r => r.freed

/-- Modelled from the spec: the defensive acyclicity check of the traversal:
every record only refers to inputs with strictly smaller indices. -/
def acyclicB (nodes : List Node) : Bool :=
  (List.range nodes.length).all (fun i =>
    match (nodes.getD i dfltNode).gradFn with
    | none => true
    | some r => r.inputs.all (fun j => j < i))

/-- Modelled from the spec: the checked traversal body: defensive cycle
check, reverse walk, accumulation into leaf slots, and release of the
visited records unless retention was requested. -/
def runBackward (g : Graph) (root : Nat) (sd : TVal) (retain : Bool) :
    Except AGError Graph :=
  if acyclicB g.nodes then
    match backwardAcc g root sd with
    | Except.error e => Except.error e
    | Except.ok (fin, vis) =>
      Except.ok ⟨if retain then g.nodes else freeVisited g.nodes vis,
                 applyAcc g.nodes g.grads fin⟩
  else Except.error AGError.CycleDetected

/-- Modelled from the spec: the seed actually used by a traversal: the
supplied seed gradient, or uniform ones of the root shape when omitted. -/
def seedVal (nd : Node) (seed : Option TVal) : TVal :=
  match seed with
  | none => ⟨nd.shape, onesData (numel nd.shape)⟩
  | some s => s

/-- Modelled from the spec: the backward entry point, validating the
preconditions of section 4.2 in their stated order: the root must be
tracked (NoGradientPath otherwise); an omitted seed is valid only for a
one-element root (AmbiguousGradient otherwise); a supplied seed must match
the root shape exactly (ShapeMismatch otherwise). -/
def backward (g : Graph) (root : Nat) (seed : Option TVal) (retain : Bool) :
    Except AGError Graph :=
  match g.nodes[root]? with
  | none => Except.error AGError.NoGradientPath
  | some nd =>
    if nd.requiresGrad then
      match seed with
      | none =>
        if numel nd.shape = 1 then runBackward g root (seedVal nd none) retain
        else Except.error AGError.AmbiguousGradient
      | some s =>
        if s.shape = nd.shape then runBackward g root s retain
        else Except.error AGError.ShapeMismatch
    else Except.error AGError.NoGradientPath

/-- Modelled from the spec: the explicit zero-reset operation on a tensor
gradient slot. -/
def zeroGradAt (g : Graph) (j : Nat) : Graph :=
  ⟨g.nodes,
   g.grads.set j (some ⟨(g.nodes.getD j dfltNode).shape,
                        zerosData (numel (g.nodes.getD j dfltNode).shape)⟩)⟩

/-- Modelled from the spec: the detach operation on a tensor: a new tensor
sharing the same underlying value, with tracking flag false and no
producing-operation reference. -/
def detachNode (nd : Node) : Node := ⟨nd.shape, nd.data, false, none⟩

/-- Modelled from the spec: detaching tensor i of a graph appends the
detached tensor as a fresh leaf with an absent gradient slot, leaving
every existing tensor untouched. -/
def detachApp (g : Graph) (i : Nat) : Graph :=
  ⟨g.nodes ++ [detachNode (g.nodes.getD i dfltNode)], g.grads ++ [none]⟩

/-- Modelled from the spec: the tracking context of forward evaluation: the
graph built so far, the current global tracking mode, and the stack of
saved modes of the enclosing no-tracking scopes. -/
structure Ctx where
  g : Graph
  gradMode : Bool
  modeStack : List Bool
deriving DecidableEq

/-- Modelled from the spec: entering the scoped no-tracking control: the
prior mode is pushed and tracking is suspended. -/
def enterNoGrad (c : Ctx) : Ctx :=
  ⟨c.g, false, c.gradMode :: c.modeStack⟩

/-- Modelled from the spec: leaving the innermost scope restores the prior
mode exactly. -/
def exitScope (c : Ctx) : Ctx :=
  match c.modeStack with
  | [] => c
  | m :: s => ⟨c.g, m, s⟩

/-- Modelled from the spec: forward tracking (section 4.1): applying a
primitive operation computes the result value, and, when tracking is not
suspended and some input is tracked, builds an operation record capturing
the input values, attaches it to the result and marks the result tracked;
otherwise the result carries tracking flag false and no record. -/
def applyOp (c : Ctx) (o : Op) (inputs : List Nat) : Ctx :=
  let ins := inputs.map (fun i => (⟨(c.g.nodes.getD i dfltNode).shape,
                                    (c.g.nodes.getD i dfltNode).data⟩ : TVal))
  let out := evalOp o ins
  let track := c.gradMode && inputs.any (fun i => (c.g.nodes.getD i dfltNode).requiresGrad)
  let nd : Node := ⟨out.shape, out.data, track,
                    if track then some ⟨o, inputs, ins, false⟩ else none⟩
  ⟨⟨c.g.nodes ++ [nd], c.g.grads ++ [none]⟩, c.gradMode, c.modeStack⟩

/-- Well-formedness of a tensor value: the data has exactly one entry per
element of the shape. -/
def wfTValB (v : TVal) : Bool := v.data.length == numel v.shape

/-- Shape discipline of each operation kind: input shapes and output shape. -/
def opShapesB : Op → List (List Nat) → List Nat → Bool
  | Op.mulC _, [s], out => out == s
  | Op.addT, [s1, s2], out => (s1 == s2) && (out == s1)
  | Op.matvec, [sx, sw], out =>
      match sx, sw with
      | [n], [n2, m] => (n == n2) && (out == [m])
      | _, _ => false
  | Op.sumAll, [_], out => out == []
  | _, _, _ => false

/-- Well-formedness of the record of node i: inputs strictly below i and in
range, captured values matching the inputs in number and shape, and the
shape discipline of the operation kind. -/
def wfRecB (nodes : List Node) (i : Nat) (r : OpRec) : Bool :=
  r.inputs.all (fun j => decide (j < i) && decide (j < nodes.length)) &&
  (r.saved.length == r.inputs.length) &&
  ((r.inputs.zip r.saved).all (fun pr =>
      (pr.2.shape == (nodes.getD pr.1 dfltNode).shape) && wfTValB pr.2)) &&
  opShapesB r.op (r.inputs.map (fun j => (nodes.getD j dfltNode).shape))
    (nodes.getD i dfltNode).shape

/-- Well-formedness of the graph tensors: data sized by the shape and every
record well-formed. -/
def wfNodesB (nodes : List Node) : Bool :=
  (List.range nodes.length).all (fun i =>
    ((nodes.getD i dfltNode).data.length == numel (nodes.getD i dfltNode).shape) &&
    (match (nodes.getD i dfltNode).gradFn with
     | none => true
     | some r => wfRecB nodes i r))

/-- Invariant of section 4.2: a populated gradient slot only ever belongs to
a leaf tensor with tracking enabled. -/
def SlotLeafInv (g : Graph) : Prop :=
  ∀ j, (g.grads.getD j none).isSome = true →
    (g.nodes.getD j dfltNode).gradFn = none ∧
    (g.nodes.getD j dfltNode).requiresGrad = true

/-- Invariant of section 3: a gradient slot, if present, has exactly the
shape of its tensor, with well-formed data. -/
def SlotShapeInv (g : Graph) : Prop :=
  ∀ j v, g.grads.getD j none = some v →
    v.shape = (g.nodes.getD j dfltNode).shape ∧ v.data.length = numel v.shape

/-- Every gradient slot of the graph is absent (a fresh graph before any
backward call). -/
def NoSlots (g : Graph) : Prop := ∀ j, g.grads.getD j none = none

/-- Well-formedness of a pending table: every aggregate has exactly the
shape of its node, with well-formed data. -/
def PendWF (nodes : List Node) (p : List (Option TVal)) : Prop :=
  ∀ j v, p.getD j none = some v →
    v.shape = (nodes.getD j dfltNode).shape ∧ v.data.length = numel v.shape

/-- Consequence of graph well-formedness used by the traversal lemmas:
every record consumes only strictly smaller, in-range indices. -/
def InputsLT (nodes : List Node) : Prop :=
  ∀ t r, (nodes.getD t dfltNode).gradFn = some r →
    ∀ j ∈ r.inputs, j < t ∧ j < nodes.length

/-- The gradient contributions an invocation sends to index j, in the order
the engine forwards them. -/
def contribOf (prs : List (Nat × TVal)) (j : Nat) : List TVal :=
  prs.filterMap (fun pr => if pr.1 = j then some pr.2 else none)

/-- The gradient contributions that the record at index i, invoked on its
final pending aggregate, sends to index j (empty when the record is absent
or never receives an upstream gradient). -/
def recContrib (nodes : List Node) (fin : List (Option TVal)) (i j : Nat) :
    List TVal :=
  match (nodes.getD i dfltNode).gradFn, fin.getD i none with
  | some r, some u => contribOf (r.inputs.zip (lgrad r u)) j
  | _, _ => []

/-- All gradient contributions sent to index j by the records at indices
i, i-1, ..., 0, in the visiting order of the reverse traversal. -/
def contribsUpTo (nodes : List Node) (fin : List (Option TVal)) (i j : Nat) :
    List TVal :=
  match i with
  | 0 => recContrib nodes fin 0 j
  | t + 1 => recContrib nodes fin (t + 1) j ++ contribsUpTo nodes fin t j

/-- Elementwise doubling of a gradient value. -/
def scaleTwo (v : TVal) : TVal := ⟨v.shape, v.data.map (fun x => 2 * x)⟩

/-- Fixture: the diamond graph of the specification, with t = 7 a tracked
scalar leaf, a = t * 2, b = t * 3 and root L = a + b. -/
def diamondG : Graph :=
  ⟨[⟨[], [7], true, none⟩,
    ⟨[], [14], true, some ⟨Op.mulC 2, [0], [⟨[], [7]⟩], false⟩⟩,
    ⟨[], [21], true, some ⟨Op.mulC 3, [0], [⟨[], [7]⟩], false⟩⟩,
    ⟨[], [35], true, some ⟨Op.addT, [1, 2], [⟨[], [14]⟩, ⟨[], [21]⟩], false⟩⟩],
   List.replicate 4 none⟩

/-- Fixture: the end-to-end graph of the specification with x of shape (5,)
untracked, w of shape (5,3) tracked, b of shape (3,) tracked,
z = matvec(x, w), z2 = z + b and a scalar reduction as the loss root (the
transcendental loss value of the external numeric library is abstracted by
the scalar reduction; the graph shapes are those of the example). -/
def exG : Graph :=
  ⟨[⟨[5], [1, 1, 1, 1, 1], false, none⟩,
    ⟨[5, 3], [1, 1, 1, 1, 1, 1, 1, 1, 1, 1, 1, 1, 1, 1, 1], true, none⟩,
    ⟨[3], [1, 1, 1], true, none⟩,
    ⟨[3], [5, 5, 5], true,
     some ⟨Op.matvec, [0, 1],
           [⟨[5], [1, 1, 1, 1, 1]⟩, ⟨[5, 3], [1, 1, 1, 1, 1, 1, 1, 1, 1, 1, 1, 1, 1, 1, 1]⟩],
           false⟩⟩,
    ⟨[3], [6, 6, 6], true,
     some ⟨Op.addT, [3, 2], [⟨[3], [5, 5, 5]⟩, ⟨[3], [1, 1, 1]⟩], false⟩⟩,
    ⟨[], [18], true, some ⟨Op.sumAll, [4], [⟨[3], [6, 6, 6]⟩], false⟩⟩],
   List.replicate 6 none⟩

/-- Fixture: a one-tensor graph whose only tensor has two elements and
tracking disabled. -/
def untrackedPairG : Graph :=
  ⟨[⟨[2], [1, 2], false, none⟩], List.replicate 1 none⟩

/-- Fixture: a tracking context holding one tracked scalar leaf, with
tracking mode active and no enclosing scope. -/
def baseCtx : Ctx :=
  ⟨⟨[⟨[], [4], true, none⟩], List.replicate 1 none⟩, true, []⟩

/-- List lookup with default through the optional lookup. -/
theorem getD_eq_getElem? {α : Type} (l : List α) (n : Nat) (d : α) :
    l.getD n d = (l[n]?).getD d := List.getD_eq_getElem?_getD l n d

/-- Setting one index leaves every other lookup unchanged. -/
theorem getD_set_ne {α : Type} (l : List α) (i j : Nat) (a d : α) (h : i ≠ j) :
    (l.set i a).getD j d = l.getD j d := by
  rw [getD_eq_getElem?, getD_eq_getElem?, List.getElem?_set_ne h]

/-- Setting an in-range index updates its lookup. -/
theorem getD_set_self {α : Type} (l : List α) (i : Nat) (a d : α)
    (h : i < l.length) : (l.set i a).getD i d = a := by
  rw [getD_eq_getElem?, List.getElem?_set_eq_of_lt a h]; rfl

/-- Out-of-range lookups give the default. -/
theorem getD_of_le {α : Type} (l : List α) (j : Nat) (d : α)
    (h : l.length ≤ j) : l.getD j d = d := by
  rw [getD_eq_getElem?]; simp [List.getElem?_eq_none, h]

/-- Lookups in a replicated list give the replicated value when it is also
the default. -/
theorem getD_replicate {α : Type} (n j : Nat) (x : α) :
    (List.replicate n x).getD j x = x := by
  rcases Nat.lt_or_ge j n with h | h
  · rw [getD_eq_getElem?]; simp [List.getElem?_replicate, h]
  · exact getD_of_le _ _ _ (by simpa using h)

/-- Lookups below the length of the left part of an append stay in it. -/
theorem getD_append_left {α : Type} (l l2 : List α) (j : Nat) (d : α)
    (h : j < l.length) : (l ++ l2).getD j d = l.getD j d := by
  rw [getD_eq_getElem?, getD_eq_getElem?, List.getElem?_append]
  simp [h]

/-- Lookup at the length of the left part of a one-element append gives the
appended value. -/
theorem getD_append_len {α : Type} (l : List α) (x d : α) :
    (l ++ [x]).getD l.length d = x := by
  rw [getD_eq_getElem?, List.getElem?_append_right (Nat.le_refl _)]
  simp

/-- Appending the default value never changes any lookup. -/
theorem getD_append_dflt {α : Type} (l : List α) (j : Nat) (d : α) :
    (l ++ [d]).getD j d = l.getD j d := by
  rcases Nat.lt_trichotomy j l.length with h | h | h
  · exact getD_append_left _ _ _ _ h
  · subst h
    rw [getD_append_len, getD_of_le _ _ _ (Nat.le_refl _)]
  · rw [getD_of_le, getD_of_le _ _ _ (Nat.le_of_lt h)]
    simpa using h

/-- Folding contributions over an appended list folds the parts in order. -/
theorem accAddList_append (o : Option TVal) (l1 l2 : List TVal) :
    accAddList o (l1 ++ l2) = accAddList (accAddList o l1) l2 := by
  simp [accAddList, List.foldl_append]

/-- Adding one contribution preserves the table length. -/
theorem length_pendAdd (p : List (Option TVal)) (j : Nat) (v : TVal) :
    (pendAdd p j v).length = p.length := by
  simp [pendAdd]

/-- Forwarding a batch of contributions preserves the table length. -/
theorem length_distribute (p : List (Option TVal)) (prs : List (Nat × TVal)) :
    (distribute p prs).length = p.length := by
  induction prs generalizing p with
  | nil => rfl
  | cons pr rest ih =>
    show (distribute (pendAdd p pr.1 pr.2) rest).length = p.length
    rw [ih, length_pendAdd]

/-- Forwarding contributions which all target other indices leaves a lookup
unchanged. -/
theorem distribute_getD_ne (p : List (Option TVal)) (prs : List (Nat × TVal))
    (k : Nat) (hb : ∀ pr ∈ prs, pr.1 ≠ k) :
    (distribute p prs).getD k none = p.getD k none := by
  induction prs generalizing p with
  | nil => rfl
  | cons pr rest ih =>
    show (distribute (pendAdd p pr.1 pr.2) rest).getD k none = p.getD k none
    rw [ih _ (fun q hq => hb q (List.mem_cons_of_mem _ hq))]
    exact getD_set_ne _ _ _ _ _ (hb pr (List.mem_cons_self _ _))

/-- Forwarding a batch of in-range contributions sums, at every index, the
contributions targeting that index into its aggregate, in arrival order
(additive accumulation: no contribution is dropped or overwritten). -/
theorem distribute_getD (p : List (Option TVal)) (prs : List (Nat × TVal))
    (j : Nat) (hb : ∀ pr ∈ prs, pr.1 < p.length) :
    (distribute p prs).getD j none =
      accAddList (p.getD j none) (contribOf prs j) := by
  induction prs generalizing p with
  | nil => rfl
  | cons pr rest ih =>
    have hb1 : pr.1 < p.length := hb pr (List.mem_cons_self _ _)
    have hbr : ∀ q ∈ rest, q.1 < (pendAdd p pr.1 pr.2).length := by
      intro q hq
      rw [length_pendAdd]
      exact hb q (List.mem_cons_of_mem _ hq)
    show (distribute (pendAdd p pr.1 pr.2) rest).getD j none = _
    rw [ih _ hbr]
    by_cases hj : pr.1 = j
    · subst hj
      have hset : (pendAdd p pr.1 pr.2).getD pr.1 none =
          accAdd (p.getD pr.1 none) pr.2 :=
        getD_set_self _ _ _ _ hb1
      rw [hset]
      simp [contribOf, List.filterMap_cons, accAddList]
    · have hset : (pendAdd p pr.1 pr.2).getD j none = p.getD j none :=
        getD_set_ne _ _ _ _ _ hj
      rw [hset]
      simp [contribOf, List.filterMap_cons, hj]

/-- Unfolding: a visit with no pending upstream gradient does nothing. -/
theorem step_none (nodes : List Node) (p : List (Option TVal)) (i : Nat)
    (h : p.getD i none = none) : step nodes p i = Except.ok (p, false) := by
  rw [getD_eq_getElem?] at h
  simp [step, h]

/-- Unfolding: a visit of a leaf keeps its aggregate for final
accumulation. -/
theorem step_leaf (nodes : List Node) (p : List (Option TVal)) (i : Nat)
    (u : TVal) (h : p.getD i none = some u)
    (h2 : (nodes.getD i dfltNode).gradFn = none) :
    step nodes p i = Except.ok (p, false) := by
  rw [getD_eq_getElem?] at h
  rw [getD_eq_getElem?] at h2
  simp [step, h, h2]

/-- Unfolding: a visit of a live record invokes its local-gradient function
on the summed aggregate and forwards one gradient per input. -/
theorem step_rec (nodes : List Node) (p : List (Option TVal)) (i : Nat)
    (u : TVal) (r : OpRec) (h : p.getD i none = some u)
    (h2 : (nodes.getD i dfltNode).gradFn = some r) (h3 : r.freed = false) :
    step nodes p i =
      Except.ok (distribute p (r.inputs.zip (lgrad r u)), true) := by
  rw [getD_eq_getElem?] at h
  rw [getD_eq_getElem?] at h2
  simp [step, h, h2, h3]

/-- Unfolding: a visit of a released record aborts the traversal. -/
theorem step_freed (nodes : List Node) (p : List (Option TVal)) (i : Nat)
    (u : TVal) (r : OpRec) (h : p.getD i none = some u)
    (h2 : (nodes.getD i dfltNode).gradFn = some r) (h3 : r.freed = true) :
    step nodes p i = Except.error AGError.GraphAlreadyFreed := by
  rw [getD_eq_getElem?] at h
  rw [getD_eq_getElem?] at h2
  simp [step, h, h2, h3]

/-- Inversion of a successful visit. -/
theorem step_ok_inv (nodes : List Node) (p : List (Option TVal)) (i : Nat)
    (q : List (Option TVal)) (b : Bool)
    (h : step nodes p i = Except.ok (q, b)) :
    (q = p ∧ b = false) ∨
    (∃ u r, p.getD i none = some u ∧
       (nodes.getD i dfltNode).gradFn = some r ∧ r.freed = false ∧
       q = distribute p (r.inputs.zip (lgrad r u)) ∧ b = true) := by
  cases hp : p.getD i none with
  | none =>
    rw [step_none _ _ _ hp] at h
    cases h
    exact Or.inl ⟨rfl, rfl⟩
  | some u =>
    cases hr : (nodes.getD i dfltNode).gradFn with
    | none =>
      rw [step_leaf _ _ _ _ hp hr] at h
      cases h
      exact Or.inl ⟨rfl, rfl⟩
    | some r =>
      cases hf : r.freed with
      | true =>
        rw [step_freed _ _ _ _ _ hp hr hf] at h
        exact absurd h (by simp)
      | false =>
        rw [step_rec _ _ _ _ _ hp hr hf] at h
        cases h
        exact Or.inr ⟨u, r, rfl, rfl, hf, rfl, rfl⟩

/-- A visit reporting no invocation either saw no pending gradient or a
leaf. -/
theorem step_not_invoked (nodes : List Node) (p : List (Option TVal)) (i : Nat)
    (q : List (Option TVal)) (h : step nodes p i = Except.ok (q, false)) :
    p.getD i none = none ∨ (nodes.getD i dfltNode).gradFn = none := by
  cases hp : p.getD i none with
  | none => exact Or.inl rfl
  | some u =>
    cases hr : (nodes.getD i dfltNode).gradFn with
    | none => exact Or.inr rfl
    | some r =>
      cases hf : r.freed with
      | true =>
        rw [step_freed _ _ _ _ _ hp hr hf] at h
        exact absurd h (by simp)
      | false =>
        rw [step_rec _ _ _ _ _ hp hr hf] at h
        exact absurd h (by simp)

/-- A failing visit only ever reports a released graph. -/
theorem step_error (nodes : List Node) (p : List (Option TVal)) (i : Nat)
    (e : AGError) (h : step nodes p i = Except.error e) :
    e = AGError.GraphAlreadyFreed := by
  cases hp : p.getD i none with
  | none => rw [step_none _ _ _ hp] at h; exact absurd h (by simp)
  | some u =>
    cases hr : (nodes.getD i dfltNode).gradFn with
    | none => rw [step_leaf _ _ _ _ hp hr] at h; exact absurd h (by simp)
    | some r =>
      cases hf : r.freed with
      | true =>
        rw [step_freed _ _ _ _ _ hp hr hf] at h
        cases h
        rfl
      | false =>
        rw [step_rec _ _ _ _ _ hp hr hf] at h
        exact absurd h (by simp)

/-- A successful visit preserves the table length. -/
theorem step_ok_length (nodes : List Node) (p : List (Option TVal)) (i : Nat)
    (q : List (Option TVal)) (b : Bool)
    (h : step nodes p i = Except.ok (q, b)) : q.length = p.length := by
  rcases step_ok_inv _ _ _ _ _ h with ⟨hq, _⟩ | ⟨u, r, _, _, _, hq, _⟩
  · rw [hq]
  · rw [hq, length_distribute]

/-- Unfolding: the base visit of the reverse walk. -/
theorem runDown_zero_ok (nodes : List Node) (p q : List (Option TVal)) (b : Bool)
    (hs : step nodes p 0 = Except.ok (q, b)) :
    runDown nodes p 0 = Except.ok (q, if b then [0] else []) := by
  unfold runDown
  rw [hs]

/-- Unfolding: a successful visit followed by a successful remainder. -/
theorem runDown_succ_ok (nodes : List Node) (p q fin : List (Option TVal))
    (i : Nat) (b : Bool) (vis : List Nat)
    (hs : step nodes p (i + 1) = Except.ok (q, b))
    (hr : runDown nodes q i = Except.ok (fin, vis)) :
    runDown nodes p (i + 1) =
      Except.ok (fin, if b then (i + 1) :: vis else vis) := by
  unfold runDown
  rw [hs]
  simp only []
  rw [hr]

/-- Inversion of a successful base visit. -/
theorem runDown_zero_inv (nodes : List Node) (p fin : List (Option TVal))
    (vis : List Nat) (h : runDown nodes p 0 = Except.ok (fin, vis)) :
    ∃ b, step nodes p 0 = Except.ok (fin, b) ∧
      vis = if b then [0] else [] := by
  unfold runDown at h
  cases hs : step nodes p 0 with
  | error e => rw [hs] at h; exact absurd h (by simp)
  | ok qb =>
    obtain ⟨q, b⟩ := qb
    rw [hs] at h
    simp only [] at h
    injection h with h2
    injection h2 with h3 h4
    subst h3
    subst h4
    exact ⟨b, rfl, rfl⟩

/-- Inversion of a successful walk from a positive index. -/
theorem runDown_succ_inv (nodes : List Node) (p fin : List (Option TVal))
    (i : Nat) (vis : List Nat)
    (h : runDown nodes p (i + 1) = Except.ok (fin, vis)) :
    ∃ q b vis2, step nodes p (i + 1) = Except.ok (q, b) ∧
      runDown nodes q i = Except.ok (fin, vis2) ∧
      vis = if b then (i + 1) :: vis2 else vis2 := by
  unfold runDown at h
  cases hs : step nodes p (i + 1) with
  | error e => rw [hs] at h; exact absurd h (by simp)
  | ok qb =>
    obtain ⟨q, b⟩ := qb
    rw [hs] at h
    simp only [] at h
    cases hr : runDown nodes q i with
    | error e =>
      rw [hr] at h
      exact absurd h (by simp)
    | ok fv =>
      obtain ⟨fin2, vis2⟩ := fv
      rw [hr] at h
      simp only [] at h
      injection h with h2
      injection h2 with h3 h4
      subst h3
      subst h4
      exact ⟨q, b, vis2, rfl, hr, rfl⟩

/-- A failing walk only ever reports a released graph. -/
theorem runDown_error (nodes : List Node) (i : Nat) :
    ∀ (p : List (Option TVal)) (e : AGError),
      runDown nodes p i = Except.error e → e = AGError.GraphAlreadyFreed := by
  induction i with
  | zero =>
    intro p e h
    unfold runDown at h
    cases hs : step nodes p 0 with
    | error e2 =>
      rw [hs] at h
      simp only [] at h
      injection h with h2
      rw [← h2]
      exact step_error _ _ _ _ hs
    | ok qb =>
      obtain ⟨q, b⟩ := qb
      rw [hs] at h
      simp at h
  | succ i ih =>
    intro p e h
    unfold runDown at h
    cases hs : step nodes p (i + 1) with
    | error e2 =>
      rw [hs] at h
      simp only [] at h
      injection h with h2
      rw [← h2]
      exact step_error _ _ _ _ hs
    | ok qb =>
      obtain ⟨q, b⟩ := qb
      rw [hs] at h
      simp only [] at h
      cases hr : runDown nodes q i with
      | error e2 =>
        rw [hr] at h
        simp only [] at h
        injection h with h2
        rw [← h2]
        exact ih _ _ hr
      | ok fv =>
        obtain ⟨fin, vis⟩ := fv
        rw [hr] at h
        simp at h

/-- A successful walk preserves the table length. -/
theorem runDown_ok_length (nodes : List Node) (i : Nat) :
    ∀ (p fin : List (Option TVal)) (vis : List Nat),
      runDown nodes p i = Except.ok (fin, vis) → fin.length = p.length := by
  induction i with
  | zero =>
    intro p fin vis h
    obtain ⟨b, hs, _⟩ := runDown_zero_inv _ _ _ _ h
    exact step_ok_length _ _ _ _ _ hs
  | succ i ih =>
    intro p fin vis h
    obtain ⟨q, b, vis2, hs, hr, _⟩ := runDown_succ_inv _ _ _ _ _ h
    rw [ih _ _ _ hr, step_ok_length _ _ _ _ _ hs]

/-- Stability: the walk from index i never changes an aggregate at or above
i, because every record forwards only to strictly smaller indices. -/
theorem runDown_stable (nodes : List Node) (hlt : InputsLT nodes) (i : Nat) :
    ∀ (p fin : List (Option TVal)) (vis : List Nat),
      runDown nodes p i = Except.ok (fin, vis) →
      ∀ k, i ≤ k → fin.getD k none = p.getD k none := by
  induction i with
  | zero =>
    intro p fin vis h k _
    obtain ⟨b, hs, _⟩ := runDown_zero_inv _ _ _ _ h
    rcases step_ok_inv _ _ _ _ _ hs with ⟨hq, _⟩ | ⟨u, r, hu, hr, hf, hq, _⟩
    · rw [hq]
    · rw [hq]
      refine distribute_getD_ne _ _ _ ?_
      intro pr hpr
      have h1 := (hlt 0 r hr pr.1 (List.of_mem_zip hpr).1).1
      omega
  | succ i ih =>
    intro p fin vis h k hk
    obtain ⟨q, b, vis2, hs, hr2, _⟩ := runDown_succ_inv _ _ _ _ _ h
    have hfq : fin.getD k none = q.getD k none := ih _ _ _ hr2 k (by omega)
    rw [hfq]
    rcases step_ok_inv _ _ _ _ _ hs with ⟨hq, _⟩ | ⟨u, r, hu, hrr, hf, hq, _⟩
    · rw [hq]
    · rw [hq]
      refine distribute_getD_ne _ _ _ ?_
      intro pr hpr
      have h1 := (hlt (i + 1) r hrr pr.1 (List.of_mem_zip hpr).1).1
      omega

/-- Unfolding: contribution list of a record that was never invoked. -/
theorem recContrib_nil (nodes : List Node) (fin : List (Option TVal))
    (i j : Nat)
    (h : fin.getD i none = none ∨ (nodes.getD i dfltNode).gradFn = none) :
    recContrib nodes fin i j = [] := by
  rcases h with h | h
  · unfold recContrib
    rw [h]
    cases (nodes.getD i dfltNode).gradFn <;> rfl
  · unfold recContrib
    rw [h]

/-- Unfolding: contribution list of an invoked record. -/
theorem recContrib_invoked (nodes : List Node) (fin : List (Option TVal))
    (i j : Nat) (u : TVal) (r : OpRec)
    (h1 : (nodes.getD i dfltNode).gradFn = some r)
    (h2 : fin.getD i none = some u) :
    recContrib nodes fin i j = contribOf (r.inputs.zip (lgrad r u)) j := by
  unfold recContrib
  rw [h1, h2]


/-- Unpacking record well-formedness. -/
theorem wfRec_parts (nodes : List Node) (t : Nat) (r : OpRec)
    (h : wfRecB nodes t r = true) :
    (∀ j ∈ r.inputs, j < t ∧ j < nodes.length) ∧
    r.saved.length = r.inputs.length ∧
    (∀ pr ∈ r.inputs.zip r.saved,
        pr.2.shape = (nodes.getD pr.1 dfltNode).shape ∧
        pr.2.data.length = numel pr.2.shape) ∧
    opShapesB r.op (r.inputs.map (fun j => (nodes.getD j dfltNode).shape))
      (nodes.getD t dfltNode).shape = true := by
  unfold wfRecB at h
  simp only [Bool.and_eq_true, List.all_eq_true, beq_iff_eq,
    decide_eq_true_eq, wfTValB] at h
  obtain ⟨⟨⟨h1, h2⟩, h3⟩, h4⟩ := h
  refine ⟨h1, h2, ?_, h4⟩
  intro pr hpr
  exact (h3 pr hpr)

/-- Every record of a well-formed graph is well-formed. -/
theorem wfNodes_rec (nodes : List Node) (h : wfNodesB nodes = true) (t : Nat)
    (r : OpRec) (hr : (nodes.getD t dfltNode).gradFn = some r) :
    wfRecB nodes t r = true := by
  by_cases ht : t < nodes.length
  · unfold wfNodesB at h
    have h2 := List.all_eq_true.mp h t (List.mem_range.mpr ht)
    simp only [hr, Bool.and_eq_true] at h2
    exact h2.2
  · rw [getD_of_le _ _ _ (Nat.le_of_not_lt ht)] at hr
    exact absurd hr (by simp [dfltNode])

/-- Every tensor of a well-formed graph has data sized by its shape. -/
theorem wfNodes_data (nodes : List Node) (h : wfNodesB nodes = true) (t : Nat)
    (ht : t < nodes.length) :
    (nodes.getD t dfltNode).data.length = numel (nodes.getD t dfltNode).shape := by
  unfold wfNodesB at h
  have h2 := List.all_eq_true.mp h t (List.mem_range.mpr ht)
  simp only [Bool.and_eq_true, beq_iff_eq] at h2
  exact h2.1

/-- A well-formed graph satisfies the input-index discipline. -/
theorem wfNodes_inputsLT (nodes : List Node) (h : wfNodesB nodes = true) :
    InputsLT nodes := by
  intro t r hr j hj
  exact (wfRec_parts _ _ _ (wfNodes_rec _ h t r hr)).1 j hj

/-- A well-formed graph passes the defensive acyclicity check. -/
theorem wfNodes_acyclic (nodes : List Node) (h : wfNodesB nodes = true) :
    acyclicB nodes = true := by
  unfold acyclicB
  refine List.all_eq_true.mpr ?_
  intro i hi
  cases hg : (nodes.getD i dfltNode).gradFn with
  | none => simp
  | some r =>
    simp only []
    refine List.all_eq_true.mpr ?_
    intro j hj
    have hb := (wfRec_parts _ _ _ (wfNodes_rec _ h i r hg)).1 j hj
    simp [hb.1]

/-- Characterization of the reverse walk: on a successful traversal, the
final aggregate at every index below the start equals the fold, in
visiting order, of exactly the contributions that every invoked consumer
record sends to that index — the engine sums the gradients flowing back
from every consumer and never drops or overwrites one. -/
theorem runDown_char (nodes : List Node) (hlt : InputsLT nodes) (i : Nat) :
    ∀ (p fin : List (Option TVal)) (vis : List Nat),
      p.length = nodes.length →
      runDown nodes p i = Except.ok (fin, vis) →
      ∀ j, fin.getD j none =
        accAddList (p.getD j none) (contribsUpTo nodes fin i j) := by
  induction i with
  | zero =>
    intro p fin vis hlen h j
    obtain ⟨b, hs, _⟩ := runDown_zero_inv _ _ _ _ h
    show fin.getD j none = accAddList (p.getD j none) (recContrib nodes fin 0 j)
    rcases step_ok_inv _ _ _ _ _ hs with ⟨hq, hb⟩ | ⟨u, r, hu, hr, hf, hq, _⟩
    · subst hq
      subst hb
      rw [recContrib_nil _ _ _ _ (step_not_invoked _ _ _ _ hs)]
      rfl
    · have hemp : r.inputs.zip (lgrad r u) = [] := by
        cases hz : r.inputs.zip (lgrad r u) with
        | nil => rfl
        | cons pr rest =>
          have hmem : pr ∈ r.inputs.zip (lgrad r u) := by
            rw [hz]
            exact List.mem_cons_self _ _
          have hb2 := (hlt 0 r hr pr.1 (List.of_mem_zip hmem).1).1
          omega
      rw [hemp] at hq
      have hfp : fin = p := hq
      subst hfp
      rw [recContrib_invoked _ _ _ _ _ _ hr hu, hemp]
      rfl
  | succ i ih =>
    intro p fin vis hlen h j
    obtain ⟨q, b, vis2, hs, hr2, _⟩ := runDown_succ_inv _ _ _ _ _ h
    have hqlen : q.length = nodes.length := by
      rw [step_ok_length _ _ _ _ _ hs]
      exact hlen
    have ihj := ih q fin vis2 hqlen hr2 j
    show fin.getD j none = accAddList (p.getD j none)
      (recContrib nodes fin (i + 1) j ++ contribsUpTo nodes fin i j)
    rw [accAddList_append, ihj]
    congr 1
    have hstab : fin.getD (i + 1) none = q.getD (i + 1) none :=
      runDown_stable nodes hlt i q fin vis2 hr2 (i + 1) (Nat.le_succ i)
    rcases step_ok_inv _ _ _ _ _ hs with ⟨hq, hb⟩ | ⟨u, r, hu, hrr, hf, hq, _⟩
    · subst hq
      subst hb
      rw [recContrib_nil, accAddList]
      · rfl
      · rcases step_not_invoked _ _ _ _ hs with hn | hn
        · exact Or.inl (by rw [hstab]; exact hn)
        · exact Or.inr hn
    · have hne : ∀ pr ∈ r.inputs.zip (lgrad r u), pr.1 ≠ i + 1 := by
        intro pr hpr
        have hb2 := (hlt (i + 1) r hrr pr.1 (List.of_mem_zip hpr).1).1
        omega
      have hfin_i1 : fin.getD (i + 1) none = some u := by
        rw [hstab, hq, distribute_getD_ne _ _ _ hne]
        exact hu
      rw [recContrib_invoked _ _ _ _ _ _ hrr hfin_i1, hq]
      refine distribute_getD _ _ _ ?_
      intro pr hpr
      have hb2 := (hlt (i + 1) r hrr pr.1 (List.of_mem_zip hpr).1).2
      rw [hlen]
      exact hb2


/-- Row decomposition always yields the requested number of rows. -/
theorem length_rowsOf (n : Nat) : ∀ (m : Nat) (l : List Int),
    (rowsOf n m l).length = n := by
  induction n with
  | zero => intro m l; rfl
  | succ n ih =>
    intro m l
    show (l.take m :: rowsOf n m (l.drop m)).length = n + 1
    simp [ih]

/-- Length of the outer-product style buffer. -/
theorem length_flatMap_map {α β γ : Type} (l : List α) (l2 : List β)
    (f : α → β → γ) :
    (l.flatMap (fun a => l2.map (f a))).length = l.length * l2.length := by
  induction l with
  | nil => simp
  | cons a tl ih =>
    simp only [List.flatMap_cons, List.length_append, List.length_map, ih,
      List.length_cons]
    ring

/-- Shape correctness of the local-gradient functions: on a well-formed
record invoked with a shape-correct upstream gradient, every forwarded
per-input gradient has exactly the shape of that input tensor. -/
theorem lgrad_wf (nodes : List Node) (t : Nat) (r : OpRec)
    (hw : wfRecB nodes t r = true) (u : TVal)
    (hus : u.shape = (nodes.getD t dfltNode).shape)
    (hul : u.data.length = numel u.shape) :
    ∀ pr ∈ r.inputs.zip (lgrad r u),
      pr.2.shape = (nodes.getD pr.1 dfltNode).shape ∧
      pr.2.data.length = numel pr.2.shape := by
  obtain ⟨hin, hsv, hsaved, hshape⟩ := wfRec_parts _ _ _ hw
  intro pr hpr
  cases hop : r.op with
  | mulC c =>
    rcases hil : r.inputs with _ | ⟨j1, tl⟩
    · rw [hil] at hpr; simp at hpr
    rcases tl with _ | ⟨j2, tl2⟩
    · rw [hop, hil] at hshape
      simp only [opShapesB, List.map, beq_iff_eq] at hshape
      rw [hil] at hpr
      unfold lgrad at hpr
      rw [hop] at hpr
      simp only [List.zip_cons_cons, List.zip_nil_left, List.mem_singleton] at hpr
      subst hpr
      constructor
      · simp only []
        rw [hus, hshape]
      · simp only [List.length_map]
        rw [hul]
    · rw [hop, hil] at hshape
      simp [opShapesB] at hshape
  | addT =>
    rcases hil : r.inputs with _ | ⟨j1, tl⟩
    · rw [hil] at hpr; simp at hpr
    rcases tl with _ | ⟨j2, tl2⟩
    · rw [hop, hil] at hshape
      simp [opShapesB] at hshape
    rcases tl2 with _ | ⟨j3, tl3⟩
    · rw [hop, hil] at hshape
      simp only [opShapesB, List.map, Bool.and_eq_true, beq_iff_eq] at hshape
      rw [hil] at hpr
      unfold lgrad at hpr
      rw [hop] at hpr
      simp only [List.zip_cons_cons, List.zip_nil_left, List.mem_cons,
        List.mem_singleton, List.not_mem_nil, or_false] at hpr
      rcases hpr with hpr | hpr <;> subst hpr
      · exact ⟨by rw [hus, hshape.2], hul⟩
      · exact ⟨by rw [hus, hshape.2, hshape.1], hul⟩
    · rw [hop, hil] at hshape
      simp [opShapesB] at hshape
  | matvec =>
    rcases hil : r.inputs with _ | ⟨jx, tl⟩
    · rw [hil] at hpr; simp at hpr
    rcases tl with _ | ⟨jw, tl2⟩
    · rw [hop, hil] at hshape
      simp [opShapesB] at hshape
    rcases tl2 with _ | ⟨j3, tl3⟩
    · -- two inputs: saved must be [x, w]
      rcases hsl : r.saved with _ | ⟨x, sl⟩
      · rw [hsl, hil] at hsv; simp at hsv
      rcases sl with _ | ⟨wv, sl2⟩
      · rw [hsl, hil] at hsv; simp at hsv
      rcases sl2 with _ | ⟨s3, sl3⟩
      · rw [hop, hil] at hshape
        simp only [opShapesB, List.map] at hshape
        rcases hsx : (nodes.getD jx dfltNode).shape with _ | ⟨n, sxtl⟩
        · rw [hsx] at hshape; simp at hshape
        rcases sxtl with _ | ⟨n2, sxtl2⟩
        swap
        · rw [hsx] at hshape; simp at hshape
        rcases hsw : (nodes.getD jw dfltNode).shape with _ | ⟨n3, swtl⟩
        · rw [hsx, hsw] at hshape; simp at hshape
        rcases swtl with _ | ⟨m, swtl2⟩
        · rw [hsx, hsw] at hshape; simp at hshape
        rcases swtl2 with _ | ⟨m2, swtl3⟩
        swap
        · rw [hsx, hsw] at hshape; simp at hshape
        rw [hsx, hsw] at hshape
        simp only [Bool.and_eq_true, beq_iff_eq] at hshape
        have hx := hsaved (jx, x) (by rw [hil, hsl]; simp)
        have hwv := hsaved (jw, wv) (by rw [hil, hsl]; simp)
        simp only [] at hx hwv
        rw [hil] at hpr
        unfold lgrad at hpr
        rw [hop, hsl] at hpr
        simp only [List.zip_cons_cons, List.zip_nil_left, List.mem_cons,
          List.mem_singleton, List.not_mem_nil, or_false] at hpr
        rcases hpr with hpr | hpr <;> subst hpr
        · refine ⟨by simp only []; exact hx.1, ?_⟩
          simp only [List.length_map, length_rowsOf]
        · refine ⟨by simp only []; exact hwv.1, ?_⟩
          simp only [length_flatMap_map]
          rw [hx.2, hwv.1, hsw, hx.1, hsx, hul, hus, hshape.2, hshape.1]
          simp [numel]
      · rw [hsl, hil] at hsv; simp at hsv
    · rw [hop, hil] at hshape
      simp [opShapesB] at hshape
  | sumAll =>
    rcases hil : r.inputs with _ | ⟨j1, tl⟩
    · rw [hil] at hpr; simp at hpr
    rcases tl with _ | ⟨j2, tl2⟩
    · rcases hsl : r.saved with _ | ⟨x, sl⟩
      · rw [hsl, hil] at hsv; simp at hsv
      rcases sl with _ | ⟨s2, sl2⟩
      · have hx := hsaved (j1, x) (by rw [hil, hsl]; simp)
        simp only [] at hx
        rw [hil] at hpr
        unfold lgrad at hpr
        rw [hop, hsl] at hpr
        simp only [List.zip_cons_cons, List.zip_nil_left, List.mem_singleton] at hpr
        subst hpr
        refine ⟨by simp only []; exact hx.1, ?_⟩
        simp
      · rw [hsl, hil] at hsv; simp at hsv
    · rw [hop, hil] at hshape
      simp [opShapesB] at hshape


/-- Adding a shape-correct contribution preserves table well-formedness. -/
theorem pendAdd_wf (nodes : List Node) (p : List (Option TVal)) (j : Nat)
    (v : TVal) (hp : PendWF nodes p)
    (hv : v.shape = (nodes.getD j dfltNode).shape ∧
          v.data.length = numel v.shape) :
    PendWF nodes (pendAdd p j v) := by
  intro k v2 hk
  by_cases hkj : k = j
  · subst hkj
    by_cases hl : k < p.length
    · rw [pendAdd, getD_set_self _ _ _ _ hl] at hk
      cases hg : p.getD k none with
      | none =>
        rw [hg] at hk
        simp only [accAdd] at hk
        cases hk
        exact hv
      | some w =>
        rw [hg] at hk
        simp only [accAdd] at hk
        cases hk
        obtain ⟨hw1, hw2⟩ := hp k w hg
        constructor
        · simp only [addTVal]
          exact hw1
        · simp only [addTVal, List.length_zipWith]
          rw [hw2, hv.2, hw1, hv.1]
          simp [addTVal, hw1]
    · rw [pendAdd, List.set_eq_of_length_le (Nat.le_of_not_lt hl)] at hk
      exact hp _ _ hk
  · rw [pendAdd, getD_set_ne _ _ _ _ _ (fun he => hkj he.symm)] at hk
    exact hp _ _ hk

/-- Forwarding shape-correct contributions preserves table
well-formedness. -/
theorem distribute_wf (nodes : List Node) (prs : List (Nat × TVal)) :
    ∀ (p : List (Option TVal)), PendWF nodes p →
      (∀ pr ∈ prs, pr.2.shape = (nodes.getD pr.1 dfltNode).shape ∧
          pr.2.data.length = numel pr.2.shape) →
      PendWF nodes (distribute p prs) := by
  induction prs with
  | nil => intro p hp _; exact hp
  | cons pr rest ih =>
    intro p hp hc
    show PendWF nodes (distribute (pendAdd p pr.1 pr.2) rest)
    refine ih _ ?_ ?_
    · exact pendAdd_wf _ _ _ _ hp (hc pr (List.mem_cons_self _ _))
    · intro q hq
      exact hc q (List.mem_cons_of_mem _ hq)

/-- One visit preserves table well-formedness on a well-formed graph. -/
theorem step_wf (nodes : List Node) (p q : List (Option TVal)) (i : Nat)
    (b : Bool) (hw : wfNodesB nodes = true) (hp : PendWF nodes p)
    (h : step nodes p i = Except.ok (q, b)) : PendWF nodes q := by
  rcases step_ok_inv _ _ _ _ _ h with ⟨hq, _⟩ | ⟨u, r, hu, hr, hf, hq, _⟩
  · rw [hq]; exact hp
  · rw [hq]
    obtain ⟨hu1, hu2⟩ := hp i u hu
    exact distribute_wf _ _ _ hp
      (lgrad_wf nodes i r (wfNodes_rec _ hw i r hr) u hu1 hu2)

/-- The reverse walk preserves table well-formedness on a well-formed
graph. -/
theorem runDown_wf (nodes : List Node) (hw : wfNodesB nodes = true) (i : Nat) :
    ∀ (p fin : List (Option TVal)) (vis : List Nat), PendWF nodes p →
      runDown nodes p i = Except.ok (fin, vis) → PendWF nodes fin := by
  induction i with
  | zero =>
    intro p fin vis hp h
    obtain ⟨b, hs, _⟩ := runDown_zero_inv _ _ _ _ h
    exact step_wf _ _ _ _ _ hw hp hs
  | succ i ih =>
    intro p fin vis hp h
    obtain ⟨q, b, vis2, hs, hr, _⟩ := runDown_succ_inv _ _ _ _ _ h
    exact ih _ _ _ (step_wf _ _ _ _ _ hw hp hs) hr

/-- Lookup of the slot table produced by final accumulation. -/
theorem applyAcc_getD (nodes : List Node) (grads acc : List (Option TVal))
    (j : Nat) (hj : j < nodes.length) :
    (applyAcc nodes grads acc).getD j none =
      (match acc.getD j none with
       | none => grads.getD j none
       | some d =>
         if (nodes.getD j dfltNode).gradFn.isNone &&
             (nodes.getD j dfltNode).requiresGrad then
           some (addTVal ((grads.getD j none).getD
             ⟨(nodes.getD j dfltNode).shape,
              zerosData (numel (nodes.getD j dfltNode).shape)⟩) d)
         else grads.getD j none) := by
  unfold applyAcc
  rw [getD_eq_getElem?, List.getElem?_map]
  rw [List.getElem?_range hj]
  rfl

/-- Out-of-range lookups of the accumulated slot table are absent. -/
theorem applyAcc_getD_ge (nodes : List Node) (grads acc : List (Option TVal))
    (j : Nat) (hj : nodes.length ≤ j) :
    (applyAcc nodes grads acc).getD j none = none := by
  refine getD_of_le _ _ _ ?_
  unfold applyAcc
  simpa using hj

/-- The accumulated slot table is indexed like the graph. -/
theorem applyAcc_length (nodes : List Node) (grads acc : List (Option TVal)) :
    (applyAcc nodes grads acc).length = nodes.length := by
  simp [applyAcc]


/-- Unfolding: releasing a leaf node is the identity. -/
theorem freeRecord_none (nd : Node) (h : nd.gradFn = none) :
    freeRecord nd = nd := by
  unfold freeRecord
  rw [h]

/-- Unfolding: releasing a node with a record. -/
theorem freeRecord_some (nd : Node) (r : OpRec) (h : nd.gradFn = some r) :
    freeRecord nd =
      ⟨nd.shape, nd.data, nd.requiresGrad, some ⟨r.op, r.inputs, [], true⟩⟩ := by
  unfold freeRecord
  rw [h]

/-- Releasing a record only sets its released mark and drops its captured
values: shape, data, tracking flag and input indices are untouched. -/
theorem freeRecord_fields (nd : Node) :
    (freeRecord nd).shape = nd.shape ∧ (freeRecord nd).data = nd.data ∧
    (freeRecord nd).requiresGrad = nd.requiresGrad ∧
    (freeRecord nd).gradFn.map OpRec.inputs = nd.gradFn.map OpRec.inputs := by
  cases hg : nd.gradFn with
  | none =>
    rw [freeRecord_none _ hg, hg]
    exact ⟨rfl, rfl, rfl, rfl⟩
  | some r =>
    rw [freeRecord_some _ _ hg]
    refine ⟨rfl, rfl, rfl, ?_⟩
    simp

/-- Releasing one record preserves every skeleton field pointwise. -/
theorem freeSet_getD (nodes : List Node) (k j : Nat) :
    ((nodes.set k (freeRecord (nodes.getD k dfltNode))).getD j dfltNode).shape
        = (nodes.getD j dfltNode).shape ∧
    ((nodes.set k (freeRecord (nodes.getD k dfltNode))).getD j dfltNode).data
        = (nodes.getD j dfltNode).data ∧
    ((nodes.set k (freeRecord (nodes.getD k dfltNode))).getD j
        dfltNode).requiresGrad = (nodes.getD j dfltNode).requiresGrad ∧
    ((nodes.set k (freeRecord (nodes.getD k dfltNode))).getD j
        dfltNode).gradFn.map OpRec.inputs =
      (nodes.getD j dfltNode).gradFn.map OpRec.inputs := by
  by_cases hjk : j = k
  · subst hjk
    by_cases hl : j < nodes.length
    · rw [getD_set_self _ _ _ _ hl]
      exact freeRecord_fields _
    · rw [List.set_eq_of_length_le (Nat.le_of_not_lt hl)]
      exact ⟨rfl, rfl, rfl, rfl⟩
  · rw [getD_set_ne _ _ _ _ _ (fun h => hjk h.symm)]
    exact ⟨rfl, rfl, rfl, rfl⟩

/-- Releasing the visited records preserves every skeleton field
pointwise. -/
theorem freeVisited_pres (vis : List Nat) : ∀ (nodes : List Node) (i : Nat),
    ((freeVisited nodes vis).getD i dfltNode).shape
        = (nodes.getD i dfltNode).shape ∧
    ((freeVisited nodes vis).getD i dfltNode).data
        = (nodes.getD i dfltNode).data ∧
    ((freeVisited nodes vis).getD i dfltNode).requiresGrad
        = (nodes.getD i dfltNode).requiresGrad ∧
    ((freeVisited nodes vis).getD i dfltNode).gradFn.map OpRec.inputs
        = (nodes.getD i dfltNode).gradFn.map OpRec.inputs := by
  induction vis with
  | nil => intro nodes i; exact ⟨rfl, rfl, rfl, rfl⟩
  | cons k rest ih =>
    intro nodes i
    have h1 := ih (nodes.set k (freeRecord (nodes.getD k dfltNode))) i
    have h2 := freeSet_getD nodes k i
    exact ⟨h1.1.trans h2.1, h1.2.1.trans h2.2.1,
           h1.2.2.1.trans h2.2.2.1, h1.2.2.2.trans h2.2.2.2⟩

/-- Releasing the visited records preserves the graph length. -/
theorem freeVisited_length (vis : List Nat) : ∀ (nodes : List Node),
    (freeVisited nodes vis).length = nodes.length := by
  induction vis with
  | nil => intro nodes; rfl
  | cons k rest ih =>
    intro nodes
    have h1 := ih (nodes.set k (freeRecord (nodes.getD k dfltNode)))
    rw [List.length_set] at h1
    exact h1

/-- Releasing a record marks it released. -/
theorem freeSet_freedAt (nodes : List Node) (k : Nat) :
    recFreedAtB (nodes.set k (freeRecord (nodes.getD k dfltNode))) k = true := by
  by_cases hl : k < nodes.length
  · unfold recFreedAtB
    rw [getD_set_self _ _ _ _ hl]
    cases hg : (nodes.getD k dfltNode).gradFn with
    | none =>
      rw [freeRecord_none _ hg, hg]
    | some r =>
      rw [freeRecord_some _ _ hg]
  · unfold recFreedAtB
    rw [List.set_eq_of_length_le (Nat.le_of_not_lt hl),
        getD_of_le _ _ _ (Nat.le_of_not_lt hl)]
    rfl

/-- Releasing a record never revives another released record. -/
theorem freeSet_freedAt_pres (nodes : List Node) (k i : Nat)
    (h : recFreedAtB nodes i = true) :
    recFreedAtB (nodes.set k (freeRecord (nodes.getD k dfltNode))) i = true := by
  by_cases hik : i = k
  · subst hik
    exact freeSet_freedAt _ _
  · unfold recFreedAtB at h ⊢
    rw [getD_set_ne _ _ _ _ _ (fun he => hik he.symm)]
    exact h

/-- Releasing visited records never revives a released record. -/
theorem freeVisited_freedAt_mono (vis : List Nat) :
    ∀ (nodes : List Node) (i : Nat), recFreedAtB nodes i = true →
      recFreedAtB (freeVisited nodes vis) i = true := by
  induction vis with
  | nil => intro nodes i h; exact h
  | cons k rest ih =>
    intro nodes i h
    exact ih _ _ (freeSet_freedAt_pres _ _ _ h)

/-- Every visited record is marked released after the release pass. -/
theorem freeVisited_freedAt (vis : List Nat) :
    ∀ (nodes : List Node) (i : Nat), i ∈ vis →
      recFreedAtB (freeVisited nodes vis) i = true := by
  induction vis with
  | nil => intro nodes i h; simp at h
  | cons k rest ih =>
    intro nodes i h
    rcases List.mem_cons.mp h with h | h
    · subst h
      exact freeVisited_freedAt_mono rest _ _ (freeSet_freedAt _ _)
    · exact ih _ _ h

/-- Releasing the visited records preserves the acyclicity check. -/
theorem freeVisited_acyclic (nodes : List Node) (vis : List Nat)
    (h : acyclicB nodes = true) : acyclicB (freeVisited nodes vis) = true := by
  unfold acyclicB at h ⊢
  rw [freeVisited_length]
  refine List.all_eq_true.mpr ?_
  intro i hi
  have h2 := List.all_eq_true.mp h i hi
  cases hg : ((freeVisited nodes vis).getD i dfltNode).gradFn with
  | none => simp [hg]
  | some r2 =>
    have hmap := (freeVisited_pres vis nodes i).2.2.2
    rw [hg] at hmap
    cases hgo : (nodes.getD i dfltNode).gradFn with
    | none =>
      rw [hgo] at hmap
      simp at hmap
    | some r =>
      rw [hgo] at hmap
      simp at hmap
      rw [hgo] at h2
      simp only [] at h2
      simp only [hg]
      rw [hmap]
      exact h2


/-- Unfolding: backward on a missing root tensor. -/
theorem backward_no_node (g : Graph) (root : Nat) (seed : Option TVal)
    (retain : Bool) (h : g.nodes[root]? = none) :
    backward g root seed retain = Except.error AGError.NoGradientPath := by
  unfold backward
  rw [h]

/-- Unfolding: backward on an untracked root. -/
theorem backward_untracked (g : Graph) (root : Nat) (seed : Option TVal)
    (retain : Bool) (nd : Node) (h : g.nodes[root]? = some nd)
    (h2 : nd.requiresGrad = false) :
    backward g root seed retain = Except.error AGError.NoGradientPath := by
  unfold backward
  rw [h]
  simp [h2]

/-- Unfolding: backward with the default seed on a one-element tracked
root. -/
theorem backward_none_scalar (g : Graph) (root : Nat) (retain : Bool)
    (nd : Node) (h : g.nodes[root]? = some nd) (h2 : nd.requiresGrad = true)
    (h3 : numel nd.shape = 1) :
    backward g root none retain = runBackward g root (seedVal nd none) retain := by
  unfold backward
  rw [h]
  simp [h2, h3]

/-- Unfolding: backward with no seed on a tracked root with several
elements. -/
theorem backward_none_nonscalar (g : Graph) (root : Nat) (retain : Bool)
    (nd : Node) (h : g.nodes[root]? = some nd) (h2 : nd.requiresGrad = true)
    (h3 : numel nd.shape ≠ 1) :
    backward g root none retain = Except.error AGError.AmbiguousGradient := by
  unfold backward
  rw [h]
  simp [h2, h3]

/-- Unfolding: backward with a seed of matching shape. -/
theorem backward_some_match (g : Graph) (root : Nat) (retain : Bool)
    (nd : Node) (s : TVal) (h : g.nodes[root]? = some nd)
    (h2 : nd.requiresGrad = true) (h3 : s.shape = nd.shape) :
    backward g root (some s) retain = runBackward g root s retain := by
  unfold backward
  rw [h]
  simp [h2, h3]

/-- Unfolding: backward with a seed of mismatched shape. -/
theorem backward_some_mismatch (g : Graph) (root : Nat) (retain : Bool)
    (nd : Node) (s : TVal) (h : g.nodes[root]? = some nd)
    (h2 : nd.requiresGrad = true) (h3 : s.shape ≠ nd.shape) :
    backward g root (some s) retain = Except.error AGError.ShapeMismatch := by
  unfold backward
  rw [h]
  simp [h2, h3]

/-- Unfolding: the checked traversal on a graph failing the defensive
cycle check. -/
theorem runBackward_cyc (g : Graph) (root : Nat) (sd : TVal) (retain : Bool)
    (h : acyclicB g.nodes = false) :
    runBackward g root sd retain = Except.error AGError.CycleDetected := by
  unfold runBackward
  rw [h]
  rfl

/-- Unfolding: the checked traversal on an acyclic graph with a successful
walk. -/
theorem runBackward_ok (g : Graph) (root : Nat) (sd : TVal) (retain : Bool)
    (fin : List (Option TVal)) (vis : List Nat)
    (ha : acyclicB g.nodes = true)
    (h : backwardAcc g root sd = Except.ok (fin, vis)) :
    runBackward g root sd retain =
      Except.ok ⟨if retain then g.nodes else freeVisited g.nodes vis,
                 applyAcc g.nodes g.grads fin⟩ := by
  unfold runBackward
  rw [ha, h]
  rfl

/-- Unfolding: the checked traversal on an acyclic graph with a failing
walk. -/
theorem runBackward_err (g : Graph) (root : Nat) (sd : TVal) (retain : Bool)
    (e : AGError) (ha : acyclicB g.nodes = true)
    (h : backwardAcc g root sd = Except.error e) :
    runBackward g root sd retain = Except.error e := by
  unfold runBackward
  rw [ha, h]
  rfl

/-- The walk of a traversal only reads the graph tensors, never the
gradient slots. -/
theorem backwardAcc_nodes (g g2 : Graph) (root : Nat) (sd : TVal)
    (h : g2.nodes = g.nodes) : backwardAcc g2 root sd = backwardAcc g root sd := by
  unfold backwardAcc
  rw [h]

/-- Inversion of a successful backward call. -/
theorem backward_ok_inv (g : Graph) (root : Nat) (seed : Option TVal)
    (retain : Bool) (g1 : Graph)
    (h : backward g root seed retain = Except.ok g1) :
    ∃ nd fin vis, g.nodes[root]? = some nd ∧ nd.requiresGrad = true ∧
      acyclicB g.nodes = true ∧
      (seed = none → numel nd.shape = 1) ∧
      (∀ s, seed = some s → s.shape = nd.shape) ∧
      backwardAcc g root (seedVal nd seed) = Except.ok (fin, vis) ∧
      g1.nodes = (if retain then g.nodes else freeVisited g.nodes vis) ∧
      g1.grads = applyAcc g.nodes g.grads fin := by
  cases hn : g.nodes[root]? with
  | none =>
    rw [backward_no_node _ _ _ _ hn] at h
    exact absurd h (by simp)
  | some nd =>
    cases hrg : nd.requiresGrad with
    | false =>
      rw [backward_untracked _ _ _ _ _ hn hrg] at h
      exact absurd h (by simp)
    | true =>
      cases seed with
      | none =>
        by_cases hsc : numel nd.shape = 1
        · rw [backward_none_scalar _ _ _ _ hn hrg hsc] at h
          cases ha : acyclicB g.nodes with
          | false =>
            rw [runBackward_cyc _ _ _ _ ha] at h
            exact absurd h (by simp)
          | true =>
            cases hacc : backwardAcc g root (seedVal nd none) with
            | error e =>
              rw [runBackward_err _ _ _ _ _ ha hacc] at h
              exact absurd h (by simp)
            | ok fv =>
              obtain ⟨fin, vis⟩ := fv
              rw [runBackward_ok _ _ _ _ _ _ ha hacc] at h
              cases h
              refine ⟨nd, fin, vis, rfl, hrg, rfl, fun _ => hsc, ?_, hacc,
                rfl, rfl⟩
              intro s hs
              cases hs
        · rw [backward_none_nonscalar _ _ _ _ hn hrg hsc] at h
          exact absurd h (by simp)
      | some s =>
        by_cases hss : s.shape = nd.shape
        · rw [backward_some_match _ _ _ _ _ hn hrg hss] at h
          cases ha : acyclicB g.nodes with
          | false =>
            rw [runBackward_cyc _ _ _ _ ha] at h
            exact absurd h (by simp)
          | true =>
            cases hacc : backwardAcc g root s with
            | error e =>
              rw [runBackward_err _ _ _ _ _ ha hacc] at h
              exact absurd h (by simp)
            | ok fv =>
              obtain ⟨fin, vis⟩ := fv
              rw [runBackward_ok _ _ _ _ _ _ ha hacc] at h
              cases h
              refine ⟨nd, fin, vis, rfl, hrg, rfl, ?_, ?_, ?_, rfl, rfl⟩
              · intro hc
                cases hc
              · intro s2 hs2
                cases hs2
                exact hss
              · exact hacc
        · rw [backward_some_mismatch _ _ _ _ _ hn hrg hss] at h
          exact absurd h (by simp)

/-- Construction of a successful backward call from its ingredients. -/
theorem backward_ok_build (g : Graph) (root : Nat) (seed : Option TVal)
    (retain : Bool) (nd : Node) (fin : List (Option TVal)) (vis : List Nat)
    (hn : g.nodes[root]? = some nd) (hrg : nd.requiresGrad = true)
    (ha : acyclicB g.nodes = true)
    (hseed : seed = none → numel nd.shape = 1)
    (hs2 : ∀ s, seed = some s → s.shape = nd.shape)
    (hacc : backwardAcc g root (seedVal nd seed) = Except.ok (fin, vis)) :
    backward g root seed retain =
      Except.ok ⟨if retain then g.nodes else freeVisited g.nodes vis,
                 applyAcc g.nodes g.grads fin⟩ := by
  cases seed with
  | none =>
    rw [backward_none_scalar _ _ _ _ hn hrg (hseed rfl)]
    exact runBackward_ok _ _ _ _ _ _ ha hacc
  | some s =>
    rw [backward_some_match _ _ _ _ _ hn hrg (hs2 s rfl)]
    exact runBackward_ok _ _ _ _ _ _ ha hacc

/-- Initial pending table: the seed sits at the root. -/
theorem initPend_getD_root (n root : Nat) (sd : TVal) (h : root < n) :
    ((List.replicate n (none : Option TVal)).set root (some sd)).getD root none
      = some sd := by
  refine getD_set_self _ _ _ _ ?_
  simpa using h

/-- Initial pending table: every other aggregate is absent. -/
theorem initPend_getD_ne (n root j : Nat) (sd : TVal) (h : root ≠ j) :
    ((List.replicate n (none : Option TVal)).set root (some sd)).getD j none
      = none := by
  rw [getD_set_ne _ _ _ _ _ h]
  exact getD_replicate _ _ _

/-- Initial pending table length. -/
theorem initPend_length (n root : Nat) (sd : TVal) :
    ((List.replicate n (none : Option TVal)).set root (some sd)).length = n := by
  simp

/-- Initial pending table well-formedness from a shape-correct seed. -/
theorem initPend_wf (nodes : List Node) (root : Nat) (sd : TVal)
    (hs : sd.shape = (nodes.getD root dfltNode).shape)
    (hl : sd.data.length = numel sd.shape) :
    PendWF nodes ((List.replicate nodes.length none).set root (some sd)) := by
  intro j v hj
  by_cases hjr : j = root
  · subst hjr
    by_cases h : j < nodes.length
    · rw [initPend_getD_root _ _ _ h] at hj
      cases hj
      exact ⟨hs, hl⟩
    · rw [List.set_eq_of_length_le
        (by simpa using Nat.le_of_not_lt h)] at hj
      rw [getD_replicate] at hj
      exact absurd hj (by simp)
  · rw [initPend_getD_ne _ _ _ _ (fun he => hjr he.symm)] at hj
    exact absurd hj (by simp)

/-- The seed actually used is shape-correct for the root whenever backward
validation passed and any supplied seed is well-formed. -/
theorem seedVal_wf (nd : Node) (seed : Option TVal)
    (hs2 : ∀ s, seed = some s → s.shape = nd.shape)
    (hwf : ∀ s, seed = some s → wfTValB s = true) :
    (seedVal nd seed).shape = nd.shape ∧
    (seedVal nd seed).data.length = numel (seedVal nd seed).shape := by
  cases seed with
  | none =>
    constructor
    · rfl
    · simp [seedVal, onesData]
  | some s =>
    have h1 := hs2 s rfl
    have hw := hwf s rfl
    unfold wfTValB at hw
    simp only [beq_iff_eq] at hw
    exact ⟨h1, hw⟩


/-- Lookup through a successful optional lookup. -/
theorem getD_of_getElem? {α : Type} (l : List α) (j : Nat) (d x : α)
    (h : l[j]? = some x) : l.getD j d = x := by
  rw [getD_eq_getElem?, h]
  rfl

/-- A successful optional lookup is in range. -/
theorem lt_of_getElem?_some {α : Type} (l : List α) (j : Nat) (x : α)
    (h : l[j]? = some x) : j < l.length := by
  rcases List.getElem?_eq_some.mp h with ⟨hl, _⟩
  exact hl

/-- In-range lookups succeed with the default-free value. -/
theorem getElem?_eq_some_getD {α : Type} (l : List α) (j : Nat) (d : α)
    (h : j < l.length) : l[j]? = some (l.getD j d) := by
  rw [getD_eq_getElem?, List.getElem?_eq_getElem h]
  rfl

/-- A graph whose slot table is all-absent has no populated slot. -/
theorem noSlots_replicate (nodes : List Node) (n : Nat) :
    NoSlots ⟨nodes, List.replicate n none⟩ := by
  intro j
  exact getD_replicate _ _ _

/-- A graph with no populated slot satisfies the leaf-slot invariant. -/
theorem slotLeafInv_of_noSlots (g : Graph) (h : NoSlots g) : SlotLeafInv g := by
  intro j hj
  rw [h j] at hj
  exact absurd hj (by simp)

/-- A graph with no populated slot satisfies the slot-shape invariant. -/
theorem slotShapeInv_of_noSlots (g : Graph) (h : NoSlots g) : SlotShapeInv g := by
  intro j v hj
  rw [h j] at hj
  exact absurd hj (by simp)

/-- Summing onto an all-zero buffer of the right size is the identity. -/
theorem zipWith_zeros_add : ∀ (l : List Int) (n : Nat), l.length = n →
    List.zipWith (· + ·) (List.replicate n (0 : Int)) l = l := by
  intro l
  induction l with
  | nil => intro n _; simp
  | cons a tl ih =>
    intro n hn
    cases n with
    | zero => simp at hn
    | succ n =>
      simp only [List.replicate_succ, List.zipWith_cons_cons, zero_add]
      rw [ih n (by simpa using hn)]

/-- Summing a buffer onto itself doubles it elementwise. -/
theorem zipWith_self_double : ∀ (l : List Int),
    List.zipWith (· + ·) l l = l.map (fun x => 2 * x) := by
  intro l
  induction l with
  | nil => rfl
  | cons a tl ih =>
    simp only [List.zipWith_cons_cons, List.map_cons, ih, List.cons.injEq]
    constructor
    · ring
    · trivial

/-- Accumulating into a fresh zero-initialised slot and then accumulating
the same contribution again doubles the slot. -/
theorem addTVal_zero_then_self (s : List Nat) (d : TVal)
    (hd : d.data.length = numel s) :
    addTVal (addTVal ⟨s, zerosData (numel s)⟩ d) d =
      scaleTwo (addTVal ⟨s, zerosData (numel s)⟩ d) := by
  unfold addTVal scaleTwo zerosData
  simp only []
  rw [zipWith_zeros_add d.data (numel s) hd]
  rw [zipWith_self_double]

/-- The root is among the visited records whenever it has a pending
gradient and a producing record. -/
theorem runDown_root_mem (nodes : List Node) (p fin : List (Option TVal))
    (root : Nat) (vis : List Nat)
    (hp : p.getD root none ≠ none)
    (hr : (nodes.getD root dfltNode).gradFn ≠ none)
    (h : runDown nodes p root = Except.ok (fin, vis)) : root ∈ vis := by
  cases root with
  | zero =>
    obtain ⟨b, hs, hv⟩ := runDown_zero_inv _ _ _ _ h
    cases b with
    | false =>
      rcases step_not_invoked _ _ _ _ hs with hc | hc
      · exact absurd hc hp
      · exact absurd hc hr
    | true =>
      subst hv
      simp
  | succ i =>
    obtain ⟨q, b, vis2, hs, hr2, hv⟩ := runDown_succ_inv _ _ _ _ _ h
    cases b with
    | false =>
      rcases step_not_invoked _ _ _ _ hs with hc | hc
      · exact absurd hc hp
      · exact absurd hc hr
    | true =>
      subst hv
      simp

/-- A walk whose first visit fails fails with that error. -/
theorem runDown_first_err (nodes : List Node) (p : List (Option TVal))
    (i : Nat) (e : AGError) (hs : step nodes p i = Except.error e) :
    runDown nodes p i = Except.error e := by
  cases i with
  | zero =>
    unfold runDown
    rw [hs]
  | succ i =>
    unfold runDown
    rw [hs]

/-- The checked traversal only ever fails with a cycle or a released
graph. -/
theorem runBackward_err_kinds (g : Graph) (root : Nat) (sd : TVal)
    (retain : Bool) (e : AGError)
    (h : runBackward g root sd retain = Except.error e) :
    e = AGError.CycleDetected ∨ e = AGError.GraphAlreadyFreed := by
  cases ha : acyclicB g.nodes with
  | false =>
    rw [runBackward_cyc _ _ _ _ ha] at h
    injection h with h2
    exact Or.inl h2.symm
  | true =>
    cases hacc : backwardAcc g root sd with
    | error e2 =>
      rw [runBackward_err _ _ _ _ _ ha hacc] at h
      injection h with h2
      subst h2
      exact Or.inr (runDown_error _ _ _ _ hacc)
    | ok fv =>
      obtain ⟨fin, vis⟩ := fv
      rw [runBackward_ok _ _ _ _ _ _ ha hacc] at h
      exact absurd h (by simp)


/-- C9: the detach operation returns a new tensor whose underlying value is
exactly the value of its source (no copy is made in the model: the result
reuses the source data), whose tracking flag is false and which carries no
producing-operation reference; at graph level, detaching tensor i appends
exactly this severed tensor. -/
theorem detach_severs :
    ∀ (nd : Node), (detachNode nd).shape = nd.shape ∧
      (detachNode nd).data = nd.data ∧
      (detachNode nd).requiresGrad = false ∧ (detachNode nd).gradFn = none ∧
      ∀ (g : Graph) (i : Nat),
        (detachApp g i).nodes.getD g.nodes.length dfltNode =
          detachNode (g.nodes.getD i dfltNode) := by
  intro nd
  refine ⟨rfl, rfl, rfl, rfl, ?_⟩
  intro g i
  exact getD_append_len _ _ _

/-- C10: detach does not mutate its source: after detaching tensor i, the
original tensor (value, tracking flag, producing-operation reference) and
every gradient slot are unchanged, and only the appended detached tensor
carries tracking flag false. -/
theorem detach_frame :
    ∀ (g : Graph) (i : Nat), i < g.nodes.length →
      (detachApp g i).nodes.getD i dfltNode = g.nodes.getD i dfltNode ∧
      (∀ j, (detachApp g i).grads.getD j none = g.grads.getD j none) ∧
      ((detachApp g i).nodes.getD g.nodes.length dfltNode).requiresGrad
        = false ∧
      ((detachApp g i).nodes.getD g.nodes.length dfltNode).gradFn = none ∧
      ((detachApp g i).nodes.getD g.nodes.length dfltNode).data =
        (g.nodes.getD i dfltNode).data := by
  intro g i hi
  refine ⟨getD_append_left _ _ _ _ hi, ?_, ?_, ?_, ?_⟩
  · intro j
    exact getD_append_dflt _ _ _
  · unfold detachApp
    rw [getD_append_len]
    rfl
  · unfold detachApp
    rw [getD_append_len]
    rfl
  · unfold detachApp
    rw [getD_append_len]
    rfl

/-- Witness for C10 on the end-to-end fixture at tensor 3. -/
theorem detach_frame_witness :
    (detachApp exG 3).nodes.getD 3 dfltNode = exG.nodes.getD 3 dfltNode ∧
    (detachApp exG 3).grads.getD 3 none = exG.grads.getD 3 none ∧
    ((detachApp exG 3).nodes.getD 6 dfltNode).requiresGrad = false := by
  obtain ⟨h1, h2, h3, _, _⟩ := detach_frame exG 3 (by decide)
  exact ⟨h1, h2 3, h3⟩

/-- C4 counterexample: on a two-element root whose tracking flag is false,
backward with no seed fails with NoGradientPath and not with
AmbiguousGradient, because the tracking precondition is validated before
the seed: the claim quantified over every root with more than one element
is false at this input. -/
theorem backward_seed_order_counterexample :
    backward untrackedPairG 0 none false =
      Except.error AGError.NoGradientPath ∧
    AGError.NoGradientPath ≠ AGError.AmbiguousGradient ∧
    numel (untrackedPairG.nodes.getD 0 dfltNode).shape = 2 := by
  refine ⟨rfl, by decide, by decide⟩

/-- C4 amended: backward validates its seed before traversing: for every
tracked root with more than one element, a missing seed fails with
AmbiguousGradient, a seed of mismatched shape fails with ShapeMismatch,
and a seed matching the root shape never produces either seed error. -/
theorem backward_seed_validation :
    ∀ (g : Graph) (root : Nat) (nd : Node) (retain : Bool),
      g.nodes[root]? = some nd → nd.requiresGrad = true →
      (numel nd.shape ≠ 1 →
        backward g root none retain = Except.error AGError.AmbiguousGradient) ∧
      (∀ s, s.shape ≠ nd.shape →
        backward g root (some s) retain = Except.error AGError.ShapeMismatch) ∧
      (∀ s, s.shape = nd.shape →
        backward g root (some s) retain ≠ Except.error AGError.ShapeMismatch ∧
        backward g root (some s) retain ≠
          Except.error AGError.AmbiguousGradient) := by
  intro g root nd retain hn hrg
  refine ⟨?_, ?_, ?_⟩
  · intro hns
    exact backward_none_nonscalar _ _ _ _ hn hrg hns
  · intro s hss
    exact backward_some_mismatch _ _ _ _ _ hn hrg hss
  · intro s hss
    rw [backward_some_match _ _ _ _ _ hn hrg hss]
    constructor
    · intro hc
      rcases runBackward_err_kinds _ _ _ _ _ hc with h | h <;> simp at h
    · intro hc
      rcases runBackward_err_kinds _ _ _ _ _ hc with h | h <;> simp at h

/-- Witness for the amended C4 on the end-to-end fixture at the non-scalar
tracked tensor 4 of shape (3,). -/
theorem backward_seed_validation_witness :
    backward exG 4 none false = Except.error AGError.AmbiguousGradient ∧
    backward exG 4 (some ⟨[2], [0, 0]⟩) false =
      Except.error AGError.ShapeMismatch ∧
    backward exG 4 (some ⟨[3], [1, 1, 1]⟩) false ≠
      Except.error AGError.ShapeMismatch := by
  have h := backward_seed_validation exG 4
    ⟨[3], [6, 6, 6], true,
     some ⟨Op.addT, [3, 2], [⟨[3], [5, 5, 5]⟩, ⟨[3], [1, 1, 1]⟩], false⟩⟩
    false rfl rfl
  exact ⟨h.1 (by decide), h.2.1 _ (by decide), (h.2.2 _ rfl).1⟩

/-- C5: every operation applied while the no-tracking scope is active
yields an untracked tensor with no record, regardless of the inputs;
backward on any untracked tensor (hence on anything derived only from
untracked tensors, which is untracked as well) fails with NoGradientPath;
entering the scope suspends tracking and leaving it restores the prior
mode and scope stack exactly, operations not disturbing either, which
supports nesting. -/
theorem noGrad_scope :
    (∀ (c : Ctx) (o : Op) (inputs : List Nat), c.gradMode = false →
        ((applyOp c o inputs).g.nodes.getD c.g.nodes.length
            dfltNode).requiresGrad = false ∧
        ((applyOp c o inputs).g.nodes.getD c.g.nodes.length
            dfltNode).gradFn = none) ∧
    (∀ (g : Graph) (j : Nat) (seed : Option TVal) (retain : Bool),
        (g.nodes.getD j dfltNode).requiresGrad = false →
        backward g j seed retain = Except.error AGError.NoGradientPath) ∧
    (∀ (c : Ctx) (o : Op) (inputs : List Nat),
        (∀ i ∈ inputs, (c.g.nodes.getD i dfltNode).requiresGrad = false) →
        ((applyOp c o inputs).g.nodes.getD c.g.nodes.length
            dfltNode).requiresGrad = false ∧
        ((applyOp c o inputs).g.nodes.getD c.g.nodes.length
            dfltNode).gradFn = none) ∧
    (∀ c : Ctx, (enterNoGrad c).gradMode = false ∧
        (exitScope (enterNoGrad c)).gradMode = c.gradMode ∧
        (exitScope (enterNoGrad c)).modeStack = c.modeStack ∧
        (∀ (o : Op) (inputs : List Nat),
            (applyOp c o inputs).gradMode = c.gradMode ∧
            (applyOp c o inputs).modeStack = c.modeStack)) := by
  refine ⟨?_, ?_, ?_, ?_⟩
  · intro c o inputs hm
    unfold applyOp
    simp only []
    rw [getD_append_len]
    simp [hm]
  · intro g j seed retain hj
    cases hn : g.nodes[j]? with
    | none => exact backward_no_node _ _ _ _ hn
    | some nd =>
      refine backward_untracked _ _ _ _ _ hn ?_
      rw [getD_of_getElem? _ _ dfltNode _ hn] at hj
      exact hj
  · intro c o inputs hin
    have hany : inputs.any
        (fun i => (c.g.nodes.getD i dfltNode).requiresGrad) = false := by
      rw [List.any_eq_false]
      intro i hi
      have h2 := hin i hi
      simp only [getD_eq_getElem?] at h2
      simp [h2]
    unfold applyOp
    simp only []
    rw [getD_append_len]
    refine ⟨?_, ?_⟩
    · show (c.gradMode && inputs.any
        (fun i => (c.g.nodes.getD i dfltNode).requiresGrad)) = false
      rw [hany, Bool.and_false]
    · show (if (c.gradMode && inputs.any
          (fun i => (c.g.nodes.getD i dfltNode).requiresGrad)) = true
        then some (⟨o, inputs, inputs.map (fun i =>
          (⟨(c.g.nodes.getD i dfltNode).shape,
            (c.g.nodes.getD i dfltNode).data⟩ : TVal)), false⟩ : OpRec)
        else none) = none
      rw [hany, Bool.and_false]
      rfl
  · intro c
    exact ⟨rfl, rfl, rfl, fun o inputs => ⟨rfl, rfl⟩⟩

/-- Witness for C5: inside the scope entered from the base context, the
scalar multiplication of the tracked leaf is untracked and recordless,
backward on it fails with NoGradientPath, and leaving the scope restores
tracking mode true with an empty stack. -/
theorem noGrad_scope_witness :
    ((applyOp (enterNoGrad baseCtx) (Op.mulC 2) [0]).g.nodes.getD 1
        dfltNode).requiresGrad = false ∧
    ((applyOp (enterNoGrad baseCtx) (Op.mulC 2) [0]).g.nodes.getD 1
        dfltNode).gradFn = none ∧
    backward (applyOp (enterNoGrad baseCtx) (Op.mulC 2) [0]).g 1 none false =
      Except.error AGError.NoGradientPath ∧
    (exitScope (enterNoGrad baseCtx)).gradMode = true ∧
    (exitScope (enterNoGrad baseCtx)).modeStack = [] := by
  obtain ⟨h1, h2, h3, h4⟩ := noGrad_scope
  refine ⟨(h1 (enterNoGrad baseCtx) (Op.mulC 2) [0] rfl).1,
          (h1 (enterNoGrad baseCtx) (Op.mulC 2) [0] rfl).2,
          h2 _ 1 none false ?_, (h4 baseCtx).2.1, (h4 baseCtx).2.2.1⟩
  exact (h1 (enterNoGrad baseCtx) (Op.mulC 2) [0] rfl).1


/-- Releasing records preserves leaf-ness pointwise. -/
theorem freeVisited_gradFn_none (vis : List Nat) (nodes : List Node) (j : Nat) :
    ((freeVisited nodes vis).getD j dfltNode).gradFn = none ↔
      (nodes.getD j dfltNode).gradFn = none := by
  have hp := (freeVisited_pres vis nodes j).2.2.2
  constructor
  · intro hh
    rw [hh] at hp
    simp only [Option.map_none'] at hp
    exact Option.map_eq_none'.mp hp.symm
  · intro hh
    rw [hh] at hp
    simp only [Option.map_none'] at hp
    exact Option.map_eq_none'.mp hp

/-- The tensors of the graph returned by a successful backward call agree
with the input tensors on leaf-ness, tracking flag and shape. -/
theorem backward_nodes_transfer (g g1 : Graph) (vis : List Nat)
    (retain : Bool)
    (hn1 : g1.nodes = (if retain then g.nodes else freeVisited g.nodes vis))
    (j : Nat) :
    ((g1.nodes.getD j dfltNode).gradFn = none ↔
      (g.nodes.getD j dfltNode).gradFn = none) ∧
    (g1.nodes.getD j dfltNode).requiresGrad
      = (g.nodes.getD j dfltNode).requiresGrad ∧
    (g1.nodes.getD j dfltNode).shape = (g.nodes.getD j dfltNode).shape := by
  cases retain with
  | true =>
    rw [hn1]
    simp
  | false =>
    rw [hn1]
    simp only [Bool.false_eq_true, if_false]
    exact ⟨freeVisited_gradFn_none _ _ _,
           (freeVisited_pres vis g.nodes j).2.2.1,
           (freeVisited_pres vis g.nodes j).1⟩

/-- C1: on every well-formed acyclic graph, the traversal computes the
aggregate reaching any tensor below the root as the fold of exactly the
gradients flowing back from every consumer invocation, in visiting order —
never last-write-wins, never first-only; in particular on the diamond
t = 7, a = t * 2, b = t * 3, L = a + b, the gradient accumulated into the
slot of t equals 5. -/
theorem backward_fanin_sum :
    (∀ (g : Graph) (root : Nat) (sd : TVal) (fin : List (Option TVal))
        (vis : List Nat) (t : Nat),
        wfNodesB g.nodes = true →
        backwardAcc g root sd = Except.ok (fin, vis) →
        t ≠ root →
        fin.getD t none =
          accAddList none (contribsUpTo g.nodes fin root t)) ∧
    (∃ gd, backward diamondG 3 none false = Except.ok gd ∧
        gd.grads.getD 0 none = some ⟨[], [5]⟩) := by
  constructor
  · intro g root sd fin vis t hw hacc ht
    unfold backwardAcc at hacc
    have hchar := runDown_char g.nodes (wfNodes_inputsLT _ hw) root
      ((List.replicate g.nodes.length none).set root (some sd)) fin vis
      (initPend_length _ _ _) hacc t
    rw [hchar, initPend_getD_ne _ _ _ _ (fun he => ht he.symm)]
  · exact ⟨_, rfl, rfl⟩

/-- Witness for C1: the characterization instantiated on the diamond
fixture, whose traversal aggregate at t is the sum 2 + 3 = 5 of the two
consumer contributions. -/
theorem backward_fanin_sum_witness :
    wfNodesB diamondG.nodes = true ∧
    backwardAcc diamondG 3 ⟨[], [1]⟩ = Except.ok
      ([some ⟨[], [5]⟩, some ⟨[], [1]⟩, some ⟨[], [1]⟩, some ⟨[], [1]⟩],
       [3, 2, 1]) ∧
    ([some ⟨[], [5]⟩, some ⟨[], [1]⟩, some ⟨[], [1]⟩, some ⟨[], [1]⟩]
        : List (Option TVal)).getD 0 none =
      accAddList none (contribsUpTo diamondG.nodes
        [some ⟨[], [5]⟩, some ⟨[], [1]⟩, some ⟨[], [1]⟩, some ⟨[], [1]⟩]
        3 0) := by
  refine ⟨by decide, rfl, ?_⟩
  exact backward_fanin_sum.1 diamondG 3 ⟨[], [1]⟩
    [some ⟨[], [5]⟩, some ⟨[], [1]⟩, some ⟨[], [1]⟩, some ⟨[], [1]⟩]
    [3, 2, 1] 0 (by decide) rfl (by decide)

/-- C7: gradient slots only ever belong to tracked leaves: if every
populated slot of a graph belongs to a leaf tensor with tracking enabled,
then after any successful backward call the same holds — no gradient is
ever materialized into the slot of an intermediate or untracked tensor. -/
theorem backward_only_tracked_leaves :
    ∀ (g : Graph) (root : Nat) (seed : Option TVal) (retain : Bool)
      (g1 : Graph), SlotLeafInv g →
      backward g root seed retain = Except.ok g1 → SlotLeafInv g1 := by
  intro g root seed retain g1 hinv h
  obtain ⟨nd, fin, vis, hn, hrg, ha, hsc, hsm, hacc, hn1, hg1⟩ :=
    backward_ok_inv _ _ _ _ _ h
  intro j hj
  have htr := backward_nodes_transfer g g1 vis retain hn1 j
  rw [hg1] at hj
  by_cases hjl : j < g.nodes.length
  · rw [applyAcc_getD _ _ _ _ hjl] at hj
    cases hf : fin.getD j none with
    | none =>
      rw [hf] at hj
      simp only [] at hj
      have hgj := hinv j hj
      refine ⟨htr.1.mpr hgj.1, ?_⟩
      rw [htr.2.1]
      exact hgj.2
    | some d =>
      rw [hf] at hj
      simp only [] at hj
      cases hguard : ((g.nodes.getD j dfltNode).gradFn.isNone &&
          (g.nodes.getD j dfltNode).requiresGrad) with
      | false =>
        rw [hguard] at hj
        simp only [Bool.false_eq_true, if_false] at hj
        have hgj := hinv j hj
        refine ⟨htr.1.mpr hgj.1, ?_⟩
        rw [htr.2.1]
        exact hgj.2
      | true =>
        simp only [Bool.and_eq_true, Option.isNone_iff_eq_none] at hguard
        refine ⟨htr.1.mpr hguard.1, ?_⟩
        rw [htr.2.1]
        exact hguard.2
  · rw [applyAcc_getD_ge _ _ _ _ (Nat.le_of_not_lt hjl)] at hj
    simp at hj

/-- C8: gradient slots always carry the shape of their tensor: on a
well-formed graph with a well-formed seed, a successful backward call
preserves the invariant that every populated slot has exactly the shape of
its tensor with data sized by that shape. -/
theorem backward_slot_shape :
    ∀ (g : Graph) (root : Nat) (seed : Option TVal) (retain : Bool)
      (g1 : Graph),
      wfNodesB g.nodes = true →
      (∀ s, seed = some s → wfTValB s = true) →
      SlotShapeInv g → backward g root seed retain = Except.ok g1 →
      SlotShapeInv g1 := by
  intro g root seed retain g1 hw hws hinv h
  obtain ⟨nd, fin, vis, hn, hrg, ha, hsc, hsm, hacc, hn1, hg1⟩ :=
    backward_ok_inv _ _ _ _ _ h
  have hnd : g.nodes.getD root dfltNode = nd := getD_of_getElem? _ _ _ _ hn
  have hsv := seedVal_wf nd seed hsm hws
  have hpw0 : PendWF g.nodes
      ((List.replicate g.nodes.length none).set root
        (some (seedVal nd seed))) := by
    refine initPend_wf _ _ _ ?_ hsv.2
    rw [hnd]
    exact hsv.1
  have hpw : PendWF g.nodes fin := by
    unfold backwardAcc at hacc
    exact runDown_wf _ hw root _ _ _ hpw0 hacc
  intro j v hj
  have htr := backward_nodes_transfer g g1 vis retain hn1 j
  rw [hg1] at hj
  by_cases hjl : j < g.nodes.length
  · rw [applyAcc_getD _ _ _ _ hjl] at hj
    cases hf : fin.getD j none with
    | none =>
      rw [hf] at hj
      simp only [] at hj
      have hgj := hinv j v hj
      refine ⟨?_, hgj.2⟩
      rw [htr.2.2]
      exact hgj.1
    | some d =>
      rw [hf] at hj
      simp only [] at hj
      obtain ⟨hd1, hd2⟩ := hpw j d hf
      cases hguard : ((g.nodes.getD j dfltNode).gradFn.isNone &&
          (g.nodes.getD j dfltNode).requiresGrad) with
      | false =>
        rw [hguard] at hj
        simp only [Bool.false_eq_true, if_false] at hj
        have hgj := hinv j v hj
        refine ⟨?_, hgj.2⟩
        rw [htr.2.2]
        exact hgj.1
      | true =>
        rw [hguard] at hj
        simp only [if_true] at hj
        cases hg0 : g.grads.getD j none with
        | none =>
          rw [hg0] at hj
          simp only [Option.getD_none] at hj
          injection hj with hj2
          subst hj2
          constructor
          · rw [htr.2.2]
            rfl
          · simp only [addTVal, List.length_zipWith, zerosData,
              List.length_replicate]
            rw [hd2, hd1]
            simp [numel]
        | some w =>
          rw [hg0] at hj
          simp only [Option.getD_some] at hj
          injection hj with hj2
          subst hj2
          have hgw := hinv j w hg0
          constructor
          · rw [htr.2.2]
            exact hgw.1
          · simp only [addTVal, List.length_zipWith]
            rw [hgw.2, hd2, hgw.1, hd1]
            simp
  · rw [applyAcc_getD_ge _ _ _ _ (Nat.le_of_not_lt hjl)] at hj
    exact absurd hj (by simp)


/-- C2: with retain_graph, calling backward a second time on the same root
of a fresh well-formed graph succeeds and leaves every slot holding
exactly twice the gradient of the single call: the second traversal sums
into the existing slot and never overwrites it. -/
theorem backward_retain_twice_doubles :
    ∀ (g : Graph) (root : Nat) (seed : Option TVal) (g1 : Graph),
      wfNodesB g.nodes = true →
      NoSlots g →
      (∀ s, seed = some s → wfTValB s = true) →
      backward g root seed true = Except.ok g1 →
      ∃ g2, backward g1 root seed true = Except.ok g2 ∧
        ∀ j, g2.grads.getD j none = (g1.grads.getD j none).map scaleTwo := by
  intro g root seed g1 hw h0 hws h
  obtain ⟨nd, fin, vis, hn, hrg, ha, hsc, hsm, hacc, hn1, hg1⟩ :=
    backward_ok_inv _ _ _ _ _ h
  have hn1x : g1.nodes = g.nodes := by
    rw [hn1]
    simp
  have hacc1 : backwardAcc g1 root (seedVal nd seed) = Except.ok (fin, vis) :=
    (backwardAcc_nodes g g1 root _ hn1x).trans hacc
  have hn2 : g1.nodes[root]? = some nd := by
    rw [hn1x]
    exact hn
  have ha2 : acyclicB g1.nodes = true := by
    rw [hn1x]
    exact ha
  have hb2 := backward_ok_build g1 root seed true nd fin vis hn2 hrg ha2
    hsc hsm hacc1
  refine ⟨_, hb2, ?_⟩
  intro j
  have hnd : g.nodes.getD root dfltNode = nd := getD_of_getElem? _ _ _ _ hn
  have hsv := seedVal_wf nd seed hsm hws
  have hpw : PendWF g.nodes fin := by
    unfold backwardAcc at hacc
    refine runDown_wf _ hw root _ _ _ ?_ hacc
    refine initPend_wf _ _ _ ?_ hsv.2
    rw [hnd]
    exact hsv.1
  show (applyAcc g1.nodes g1.grads fin).getD j none =
    (g1.grads.getD j none).map scaleTwo
  rw [hn1x, hg1]
  by_cases hjl : j < g.nodes.length
  · rw [applyAcc_getD g.nodes (applyAcc g.nodes g.grads fin) fin j hjl]
    have hAj := applyAcc_getD g.nodes g.grads fin j hjl
    cases hf : fin.getD j none with
    | none =>
      rw [hf] at hAj
      simp only [] at hAj
      simp only []
      rw [hAj, h0 j]
      rfl
    | some d =>
      rw [hf] at hAj
      simp only [] at hAj
      rw [h0 j] at hAj
      simp only [Option.getD_none] at hAj
      simp only []
      cases hguard : ((g.nodes.getD j dfltNode).gradFn.isNone &&
          (g.nodes.getD j dfltNode).requiresGrad) with
      | false =>
        rw [hguard] at hAj
        simp only [Bool.false_eq_true, if_false] at hAj
        simp only [Bool.false_eq_true, if_false]
        rw [hAj]
        rfl
      | true =>
        rw [hguard] at hAj
        simp only [if_true] at hAj
        simp only [if_true]
        rw [hAj]
        simp only [Option.getD_some, Option.map_some]
        obtain ⟨hd1, hd2⟩ := hpw j d hf
        refine congrArg some ?_
        refine addTVal_zero_then_self _ d ?_
        rw [hd2, hd1]
  · rw [applyAcc_getD_ge _ _ _ _ (Nat.le_of_not_lt hjl),
        applyAcc_getD_ge _ _ _ _ (Nat.le_of_not_lt hjl)]
    rfl

/-- Witness for C2 on the diamond fixture: two retained backward calls
double the gradient of the leaf from 5 to 10. -/
theorem backward_retain_twice_doubles_witness :
    backward diamondG 3 none true =
      Except.ok ⟨diamondG.nodes,
        [some ⟨[], [5]⟩, none, none, none]⟩ ∧
    backward (⟨diamondG.nodes, [some ⟨[], [5]⟩, none, none, none]⟩ : Graph)
        3 none true =
      Except.ok ⟨diamondG.nodes, [some ⟨[], [10]⟩, none, none, none]⟩ ∧
    ((⟨diamondG.nodes, [some ⟨[], [10]⟩, none, none, none]⟩ :
        Graph).grads.getD 0 none) =
      (((⟨diamondG.nodes, [some ⟨[], [5]⟩, none, none, none]⟩ :
        Graph).grads.getD 0 none)).map scaleTwo := by
  obtain ⟨g2, hg2, hdj⟩ := backward_retain_twice_doubles diamondG 3 none
    ⟨diamondG.nodes, [some ⟨[], [5]⟩, none, none, none]⟩
    (by decide) (noSlots_replicate _ 4) (fun s hs => by cases hs) rfl
  have hexact : backward
      (⟨diamondG.nodes, [some ⟨[], [5]⟩, none, none, none]⟩ : Graph)
      3 none true =
      Except.ok ⟨diamondG.nodes, [some ⟨[], [10]⟩, none, none, none]⟩ := rfl
  rw [hexact] at hg2
  injection hg2 with hq
  subst hq
  exact ⟨rfl, hexact, hdj 0⟩


/-- C6: the reset law: on a fresh well-formed graph, after one retained
backward call, zeroing the populated gradient slot of a leaf and calling
backward once more yields exactly the gradient of a single backward call
on the fresh graph. -/
theorem backward_zero_reset :
    ∀ (g : Graph) (root : Nat) (seed : Option TVal) (g1 : Graph) (t : Nat)
      (v : TVal),
      wfNodesB g.nodes = true →
      NoSlots g →
      (∀ s, seed = some s → wfTValB s = true) →
      backward g root seed true = Except.ok g1 →
      g1.grads.getD t none = some v →
      ∃ g2, backward (zeroGradAt g1 t) root seed true = Except.ok g2 ∧
        g2.grads.getD t none = some v := by
  intro g root seed g1 t v hw h0 hws h hslot
  obtain ⟨nd, fin, vis, hn, hrg, ha, hsc, hsm, hacc, hn1, hg1⟩ :=
    backward_ok_inv _ _ _ _ _ h
  have hn1x : g1.nodes = g.nodes := by
    rw [hn1]
    simp
  have hzn : (zeroGradAt g1 t).nodes = g.nodes := hn1x
  have hacc1 : backwardAcc (zeroGradAt g1 t) root (seedVal nd seed) =
      Except.ok (fin, vis) :=
    (backwardAcc_nodes g _ root _ hzn).trans hacc
  have hn2 : (zeroGradAt g1 t).nodes[root]? = some nd := by
    show g1.nodes[root]? = some nd
    rw [hn1x]
    exact hn
  have ha2 : acyclicB (zeroGradAt g1 t).nodes = true := by
    show acyclicB g1.nodes = true
    rw [hn1x]
    exact ha
  have hb2 := backward_ok_build (zeroGradAt g1 t) root seed true nd fin vis
    hn2 hrg ha2 hsc hsm hacc1
  refine ⟨_, hb2, ?_⟩
  have ht_lt : t < g.nodes.length := by
    by_contra hcon
    rw [hg1, applyAcc_getD_ge _ _ _ _ (Nat.le_of_not_lt hcon)] at hslot
    exact absurd hslot (by simp)
  rw [hg1, applyAcc_getD _ _ _ _ ht_lt] at hslot
  cases hf : fin.getD t none with
  | none =>
    rw [hf] at hslot
    simp only [] at hslot
    rw [h0 t] at hslot
    exact absurd hslot (by simp)
  | some d =>
    rw [hf] at hslot
    simp only [] at hslot
    cases hguard : ((g.nodes.getD t dfltNode).gradFn.isNone &&
        (g.nodes.getD t dfltNode).requiresGrad) with
    | false =>
      rw [hguard] at hslot
      simp only [Bool.false_eq_true, if_false] at hslot
      rw [h0 t] at hslot
      exact absurd hslot (by simp)
    | true =>
      rw [hguard] at hslot
      simp only [if_true] at hslot
      rw [h0 t] at hslot
      simp only [Option.getD_none] at hslot
      show (applyAcc (zeroGradAt g1 t).nodes (zeroGradAt g1 t).grads
          fin).getD t none = some v
      rw [hzn, applyAcc_getD _ _ _ _ ht_lt, hf]
      simp only []
      rw [hguard]
      simp only [if_true]
      have hzslot : (zeroGradAt g1 t).grads.getD t none =
          some ⟨(g1.nodes.getD t dfltNode).shape,
                zerosData (numel (g1.nodes.getD t dfltNode).shape)⟩ := by
        show (g1.grads.set t _).getD t none = _
        refine getD_set_self _ _ _ _ ?_
        rw [hg1, applyAcc_length]
        exact ht_lt
      rw [hzslot]
      simp only [Option.getD_some]
      rw [hn1x]
      exact hslot

/-- Witness for C6 on the diamond fixture: zeroing the slot of t and
re-running the retained backward restores the single-call gradient 5. -/
theorem backward_zero_reset_witness :
    backward diamondG 3 none true =
      Except.ok ⟨diamondG.nodes, [some ⟨[], [5]⟩, none, none, none]⟩ ∧
    backward (zeroGradAt
        (⟨diamondG.nodes, [some ⟨[], [5]⟩, none, none, none]⟩ : Graph) 0)
        3 none true =
      Except.ok ⟨diamondG.nodes, [some ⟨[], [5]⟩, none, none, none]⟩ ∧
    ((⟨diamondG.nodes, [some ⟨[], [5]⟩, none, none, none]⟩ :
        Graph).grads.getD 0 none) = some ⟨[], [5]⟩ := by
  obtain ⟨g2, hg2, hslot2⟩ := backward_zero_reset diamondG 3 none
    (⟨diamondG.nodes, [some ⟨[], [5]⟩, none, none, none]⟩ : Graph) 0
    ⟨[], [5]⟩ (by decide) (noSlots_replicate _ 4) (fun s hs => by cases hs)
    rfl rfl
  have hexact : backward (zeroGradAt
      (⟨diamondG.nodes, [some ⟨[], [5]⟩, none, none, none]⟩ : Graph) 0)
      3 none true =
      Except.ok ⟨diamondG.nodes, [some ⟨[], [5]⟩, none, none, none]⟩ := rfl
  exact ⟨rfl, hexact, rfl⟩


/-- C3: graph retention: a successful non-retained backward call releases
every operation record its traversal visited (invalidating the root link
to its producing record), so a second backward on the same root fails
with GraphAlreadyFreed; a retained first call leaves the graph valid for
a subsequent identical traversal, which succeeds. -/
theorem backward_graph_retention :
    (∀ (g : Graph) (root : Nat) (seed : Option TVal) (g1 : Graph) (r : OpRec),
        (g.nodes.getD root dfltNode).gradFn = some r →
        backward g root seed false = Except.ok g1 →
        (∀ nd fin vis, g.nodes[root]? = some nd →
            backwardAcc g root (seedVal nd seed) = Except.ok (fin, vis) →
            ∀ i ∈ vis, recFreedAtB g1.nodes i = true) ∧
        (∀ retain2, backward g1 root seed retain2 =
            Except.error AGError.GraphAlreadyFreed)) ∧
    (∀ (g : Graph) (root : Nat) (seed : Option TVal) (g1 : Graph),
        backward g root seed true = Except.ok g1 →
        ∃ g2, backward g1 root seed true = Except.ok g2) := by
  constructor
  · intro g root seed g1 r hrec h
    obtain ⟨nd, fin, vis, hn, hrg, ha, hsc, hsm, hacc, hn1, hg1⟩ :=
      backward_ok_inv _ _ _ _ _ h
    have hn1x : g1.nodes = freeVisited g.nodes vis := by
      rw [hn1]
      simp
    have hndeq : g.nodes.getD root dfltNode = nd :=
      getD_of_getElem? _ _ _ _ hn
    have hroot_lt : root < g.nodes.length := lt_of_getElem?_some _ _ _ hn
    have hrmem : root ∈ vis := by
      unfold backwardAcc at hacc
      refine runDown_root_mem _ _ _ _ _ ?_ ?_ hacc
      · rw [initPend_getD_root _ _ _ hroot_lt]
        simp
      · rw [hrec]
        simp
    constructor
    · intro nd2 fin2 vis2 hn2 hacc2 i hi
      rw [hn] at hn2
      injection hn2 with hnd2
      subst hnd2
      rw [hacc] at hacc2
      injection hacc2 with hp2
      injection hp2 with hf2 hv2
      subst hv2
      rw [hn1x]
      exact freeVisited_freedAt vis _ i hi
    · intro retain2
      have hlen1 : g1.nodes.length = g.nodes.length := by
        rw [hn1x]
        exact freeVisited_length _ _
      have hn2 : g1.nodes[root]? = some (g1.nodes.getD root dfltNode) := by
        refine getElem?_eq_some_getD _ _ dfltNode ?_
        rw [hlen1]
        exact hroot_lt
      have hshape1 : (g1.nodes.getD root dfltNode).shape = nd.shape := by
        rw [hn1x, ← hndeq]
        exact (freeVisited_pres vis g.nodes root).1
      have hrg1 : (g1.nodes.getD root dfltNode).requiresGrad = true := by
        rw [hn1x, (freeVisited_pres vis g.nodes root).2.2.1, hndeq]
        exact hrg
      have ha1 : acyclicB g1.nodes = true := by
        rw [hn1x]
        exact freeVisited_acyclic _ _ ha
      have hfreed : recFreedAtB g1.nodes root = true := by
        rw [hn1x]
        exact freeVisited_freedAt vis _ root hrmem
      have hsome : ∃ r2, (g1.nodes.getD root dfltNode).gradFn = some r2 ∧
          r2.freed = true := by
        cases hg2 : (g1.nodes.getD root dfltNode).gradFn with
        | none =>
          have hnone : (g.nodes.getD root dfltNode).gradFn = none := by
            refine (freeVisited_gradFn_none vis g.nodes root).mp ?_
            rw [← hn1x]
            exact hg2
          rw [hrec] at hnone
          exact absurd hnone (by simp)
        | some r2 =>
          refine ⟨r2, rfl, ?_⟩
          unfold recFreedAtB at hfreed
          rw [hg2] at hfreed
          exact hfreed
      obtain ⟨r2, hr2, hfr2⟩ := hsome
      have hstep : step g1.nodes
          ((List.replicate g1.nodes.length none).set root
            (some (seedVal (g1.nodes.getD root dfltNode) seed))) root =
          Except.error AGError.GraphAlreadyFreed := by
        refine step_freed _ _ _
          (seedVal (g1.nodes.getD root dfltNode) seed) _ ?_ hr2 hfr2
        refine initPend_getD_root _ _ _ ?_
        rw [hlen1]
        exact hroot_lt
      have haccerr : backwardAcc g1 root
          (seedVal (g1.nodes.getD root dfltNode) seed) =
          Except.error AGError.GraphAlreadyFreed := by
        unfold backwardAcc
        exact runDown_first_err _ _ _ _ hstep
      cases seed with
      | none =>
        have hnum : numel (g1.nodes.getD root dfltNode).shape = 1 := by
          rw [hshape1]
          exact hsc rfl
        rw [backward_none_scalar g1 root retain2 _ hn2 hrg1 hnum]
        exact runBackward_err _ _ _ _ _ ha1 haccerr
      | some s =>
        have hss : s.shape = (g1.nodes.getD root dfltNode).shape := by
          rw [hshape1]
          exact hsm s rfl
        rw [backward_some_match g1 root retain2 _ s hn2 hrg1 hss]
        exact runBackward_err _ _ _ _ _ ha1 haccerr
  · intro g root seed g1 h
    obtain ⟨nd, fin, vis, hn, hrg, ha, hsc, hsm, hacc, hn1, hg1⟩ :=
      backward_ok_inv _ _ _ _ _ h
    have hn1x : g1.nodes = g.nodes := by
      rw [hn1]
      simp
    have hacc1 : backwardAcc g1 root (seedVal nd seed) =
        Except.ok (fin, vis) :=
      (backwardAcc_nodes g g1 root _ hn1x).trans hacc
    refine ⟨_, backward_ok_build g1 root seed true nd fin vis ?_ hrg ?_
      hsc hsm hacc1⟩
    · rw [hn1x]
      exact hn
    · rw [hn1x]
      exact ha

/-- Witness for C3 on the diamond fixture: after the non-retained call the
root record is released and a second backward fails with
GraphAlreadyFreed. -/
theorem backward_graph_retention_witness :
    recFreedAtB
      [(⟨[], [7], true, none⟩ : Node),
       ⟨[], [14], true, some ⟨Op.mulC 2, [0], [], true⟩⟩,
       ⟨[], [21], true, some ⟨Op.mulC 3, [0], [], true⟩⟩,
       ⟨[], [35], true, some ⟨Op.addT, [1, 2], [], true⟩⟩] 3 = true ∧
    backward
      (⟨[⟨[], [7], true, none⟩,
         ⟨[], [14], true, some ⟨Op.mulC 2, [0], [], true⟩⟩,
         ⟨[], [21], true, some ⟨Op.mulC 3, [0], [], true⟩⟩,
         ⟨[], [35], true, some ⟨Op.addT, [1, 2], [], true⟩⟩],
        [some ⟨[], [5]⟩, none, none, none]⟩ : Graph) 3 none false =
      Except.error AGError.GraphAlreadyFreed := by
  obtain ⟨h1, h2⟩ := backward_graph_retention.1 diamondG 3 none
    (⟨[⟨[], [7], true, none⟩,
       ⟨[], [14], true, some ⟨Op.mulC 2, [0], [], true⟩⟩,
       ⟨[], [21], true, some ⟨Op.mulC 3, [0], [], true⟩⟩,
       ⟨[], [35], true, some ⟨Op.addT, [1, 2], [], true⟩⟩],
      [some ⟨[], [5]⟩, none, none, none]⟩ : Graph)
    ⟨Op.addT, [1, 2], [⟨[], [14]⟩, ⟨[], [21]⟩], false⟩ rfl rfl
  refine ⟨?_, h2 false⟩
  exact h1 ⟨[], [35], true,
      some ⟨Op.addT, [1, 2], [⟨[], [14]⟩, ⟨[], [21]⟩], false⟩⟩
    [some ⟨[], [5]⟩, some ⟨[], [1]⟩, some ⟨[], [1]⟩, some ⟨[], [1]⟩]
    [3, 2, 1] rfl rfl 3 (by simp)


/-- Witness for C7: after backward on the end-to-end fixture, the resulting
graph keeps the leaf-slot invariant: only the tracked leaves w and b hold
slots. -/
theorem backward_only_tracked_leaves_witness :
    SlotLeafInv
      ⟨[⟨[5], [1, 1, 1, 1, 1], false, none⟩,
        ⟨[5, 3], [1, 1, 1, 1, 1, 1, 1, 1, 1, 1, 1, 1, 1, 1, 1], true, none⟩,
        ⟨[3], [1, 1, 1], true, none⟩,
        ⟨[3], [5, 5, 5], true, some ⟨Op.matvec, [0, 1], [], true⟩⟩,
        ⟨[3], [6, 6, 6], true, some ⟨Op.addT, [3, 2], [], true⟩⟩,
        ⟨[], [18], true, some ⟨Op.sumAll, [4], [], true⟩⟩],
       [none, some ⟨[5, 3], [1, 1, 1, 1, 1, 1, 1, 1, 1, 1, 1, 1, 1, 1, 1]⟩,
        some ⟨[3], [1, 1, 1]⟩, none, none, none]⟩ :=
  backward_only_tracked_leaves exG 5 none false _
    (slotLeafInv_of_noSlots exG (noSlots_replicate exG.nodes 6)) rfl

/-- Witness for C8: after backward on the end-to-end fixture, every slot
has the shape of its tensor; in particular w carries a slot of shape
(5,3) and b a slot of shape (3,). -/
theorem backward_slot_shape_witness :
    SlotShapeInv
      ⟨[⟨[5], [1, 1, 1, 1, 1], false, none⟩,
        ⟨[5, 3], [1, 1, 1, 1, 1, 1, 1, 1, 1, 1, 1, 1, 1, 1, 1], true, none⟩,
        ⟨[3], [1, 1, 1], true, none⟩,
        ⟨[3], [5, 5, 5], true, some ⟨Op.matvec, [0, 1], [], true⟩⟩,
        ⟨[3], [6, 6, 6], true, some ⟨Op.addT, [3, 2], [], true⟩⟩,
        ⟨[], [18], true, some ⟨Op.sumAll, [4], [], true⟩⟩],
       [none, some ⟨[5, 3], [1, 1, 1, 1, 1, 1, 1, 1, 1, 1, 1, 1, 1, 1, 1]⟩,
        some ⟨[3], [1, 1, 1]⟩, none, none, none]⟩ ∧
    ((⟨[⟨[5], [1, 1, 1, 1, 1], false, none⟩,
        ⟨[5, 3], [1, 1, 1, 1, 1, 1, 1, 1, 1, 1, 1, 1, 1, 1, 1], true, none⟩,
        ⟨[3], [1, 1, 1], true, none⟩,
        ⟨[3], [5, 5, 5], true, some ⟨Op.matvec, [0, 1], [], true⟩⟩,
        ⟨[3], [6, 6, 6], true, some ⟨Op.addT, [3, 2], [], true⟩⟩,
        ⟨[], [18], true, some ⟨Op.sumAll, [4], [], true⟩⟩],
       [none, some ⟨[5, 3], [1, 1, 1, 1, 1, 1, 1, 1, 1, 1, 1, 1, 1, 1, 1]⟩,
        some ⟨[3], [1, 1, 1]⟩, none, none, none]⟩ :
        Graph).grads.getD 1 none).map TVal.shape = some [5, 3] ∧
    ((⟨[⟨[5], [1, 1, 1, 1, 1], false, none⟩,
        ⟨[5, 3], [1, 1, 1, 1, 1, 1, 1, 1, 1, 1, 1, 1, 1, 1, 1], true, none⟩,
        ⟨[3], [1, 1, 1], true, none⟩,
        ⟨[3], [5, 5, 5], true, some ⟨Op.matvec, [0, 1], [], true⟩⟩,
        ⟨[3], [6, 6, 6], true, some ⟨Op.addT, [3, 2], [], true⟩⟩,
        ⟨[], [18], true, some ⟨Op.sumAll, [4], [], true⟩⟩],
       [none, some ⟨[5, 3], [1, 1, 1, 1, 1, 1, 1, 1, 1, 1, 1, 1, 1, 1, 1]⟩,
        some ⟨[3], [1, 1, 1]⟩, none, none, none]⟩ :
        Graph).grads.getD 2 none).map TVal.shape = some [3] := by
  refine ⟨?_, rfl, rfl⟩
  exact backward_slot_shape exG 5 none false _ (by decide)
    (fun s hs => by cases hs)
    (slotShapeInv_of_noSlots exG (noSlots_replicate exG.nodes 6)) rfl

end Autograd
